import Mathlib

set_option maxRecDepth 8000

/-!
Verification development for the gradient-checkpointing core of the
cgadimpl reverse-mode autodiff engine.

The checkpointing implementation itself (include/ad/checkpoint.hpp,
src/core/checkpoint.cpp, src/core/autodiff.cpp, include/ad/graph.hpp,
include/ad/detail/ops.def) is not part of the files available under src/;
what is available are the repository documents that describe it verbatim
(src/README.md, src/ckpt-1.md, src/unnamed/part_000,
src/cgadimpl/IMPROVEMENT_SUGGESTIONS.md), the operator wrapper layer
(src/cgadimpl/src/core/ops.cpp) and unrelated tests.  The definitions
below are therefore a shallow embedding modelled from the specification
and from those repository documents; each definition's doc comment names
its source.

Modelling conventions:
* A graph is a list of nodes; the list position is the node id, and
  well-formedness (`WF`) demands every input id be smaller than the node's
  own id, so list order is a topological order with the root last —
  matching the engine's topological numbering (README.md, Phase 2).
* Tensor values are an arbitrary type `V` together with an `OpSem V`
  record of deterministic kernels (forward evaluation, VJP, gradient
  accumulation, shape queries).  Determinism of the op set is captured by
  these being functions.
* Mutable per-node checkpoint state (graph.hpp Phase 1 fields) is a
  function from node ids to `NodeState`.
-/

namespace Cgadimpl

/-- Forward-operator tags (include/ad/detail/ops.def tags, as named in
README.md Phase 4 and in src/cgadimpl/src/core/ops.cpp).  `Leaf` marks a
user-supplied parameter node. -/
inductive Op where
  | Leaf | Add | Sub | Mul | Div | MatMul | ReLU | Tanh | Exp | Log | Sigmoid
  | Transpose | Sum | Cos | Sin | Sinh | Cosh | Softmax | LayerNorm | Attention | Dropout
deriving DecidableEq

/-- Modelled from the spec: the forward re-execution dispatch table of
`execute_forward_op` (src/core/checkpoint.cpp is absent; README.md
lines 130-138 lists the implemented ops: Add, Sub, Mul, Div, MatMul,
ReLU, Tanh, Exp, Log, Transpose, Sum — note Sigmoid is not listed). -/
def supported : Op → Bool
  | .Add | .Sub | .Mul | .Div | .MatMul | .ReLU | .Tanh | .Exp | .Log | .Transpose | .Sum => true
  | _ => false

/-- Known-stochastic op classification (spec section 7, ckpt-1.md: Dropout
is the stochastic op whose RNG capture is stubbed). -/
def stochastic : Op → Bool
  | .Dropout => true
  | _ => false

/-- Modelled from the spec: the name strings of the operation-definition
table include/ad/detail/ops.def (the file itself is absent from src/).
The entries for Div, Cos and Sin are verbatim from the quoted lines of
src/unnamed/part_000 (lines 9-29): OP(Div, 2, "mul"), OP(Cos, 1, "cosh"),
OP(Sin, 1, "sinh"); the remaining entries follow the table's lower-case
naming convention (e.g. OP(RMSNorm, 1, "rmsnorm") as quoted in
src/cgadimpl/IMPROVEMENT_SUGGESTIONS.md lines 651-671). -/
def opName : Op → String
  | .Leaf => "leaf"
  | .Add => "add"
  | .Sub => "sub"
  | .Mul => "mul"
  | .Div => "mul"
  | .MatMul => "matmul"
  | .ReLU => "relu"
  | .Tanh => "tanh"
  | .Exp => "exp"
  | .Log => "log"
  | .Sigmoid => "sigmoid"
  | .Transpose => "transpose"
  | .Sum => "sum"
  | .Cos => "cosh"
  | .Sin => "sinh"
  | .Sinh => "sinh"
  | .Cosh => "cosh"
  | .Softmax => "softmax"
  | .LayerNorm => "layernorm"
  | .Attention => "attention"
  | .Dropout => "dropout"

/-- A graph node as the core sees it (spec section 3): an op tag, the
ordered list of input node ids, the requires-grad flag, and — for leaf
nodes — the user-supplied tensor payload. -/
structure Nd (V : Type) where
  op : Op
  inputs : List Nat
  requiresGrad : Bool
  payload : V

/-- A computation graph: node ids are list positions; list order is a
topological order with the root last (root id = length - 1). -/
abbrev Graph (V : Type) := List (Nd V)

/-- Deterministic tensor-kernel semantics consumed from the tensor library
and the graph/ops layer (spec section 6): forward evaluation of one op,
the VJP (gradient contribution to input number k), gradient accumulation,
the zero/one gradients, shape query and zero tensor of a given shape, and
the empty (default-constructed) tensor. -/
structure OpSem (V : Type) where
  eval : Op → List V → V
  vjp : Op → List V → V → V → Nat → V
  addG : V → V → V
  one : V
  shapeOf : V → List Nat
  zeros : List Nat → V
  emptyV : V

/-- Per-node mutable state: the checkpoint annotations added to Node by
Phase 1 (graph.hpp: is_checkpoint, value_deleted, cached_shape) together
with the node's materialized value (`none` models a released / empty
tensor) and the gradient accumulator. -/
structure NodeState (V : Type) where
  isCheckpoint : Bool
  valueDeleted : Bool
  value : Option V
  cachedShape : List Nat
  grad : V

/-- Whole-graph mutable state, indexed by node id. -/
abbrev St (V : Type) := Nat → NodeState V

/-- Overwrite the state of node `i`. -/
def upd {V : Type} (s : St V) (i : Nat) (ns : NodeState V) : St V :=
  fun j => if j = i then ns else s j

/-- Input ids of node `i` (empty for ids outside the graph). -/
def inputsOf {V : Type} (g : Graph V) (i : Nat) : List Nat :=
  ((g.get? i).map Nd.inputs).getD []

/-- Op tag of node `i`. -/
def opOf {V : Type} (g : Graph V) (i : Nat) : Op :=
  ((g.get? i).map Nd.op).getD Op.Leaf

/-- Requires-grad flag of node `i`. -/
def requiresGradOf {V : Type} (g : Graph V) (i : Nat) : Bool :=
  ((g.get? i).map Nd.requiresGrad).getD false

/-- A leaf is a node with no inputs (spec glossary). -/
def leafAt {V : Type} (g : Graph V) (i : Nat) : Bool :=
  (inputsOf g i).isEmpty

/-- Well-formedness: every edge goes to a strictly smaller id, so the id
order is a topological order and the graph is acyclic by construction. -/
def WF {V : Type} (g : Graph V) : Prop :=
  ∀ i nd, g.get? i = some nd → ∀ j ∈ nd.inputs, j < i

/-- Forward evaluation with explicit fuel (the fuel is only a termination
device; `valFuel_congr` shows any fuel of at least the node id agrees). -/
def valFuel {V : Type} (S : OpSem V) (g : Graph V) : Nat → Nat → V
  | fuel, i =>
    match g.get? i with
    | none => S.emptyV
    | some nd =>
      if nd.inputs.isEmpty then nd.payload
      else
        match fuel with
        | 0 => S.emptyV
        | fuel' + 1 => S.eval nd.op (nd.inputs.map (fun j => valFuel S g fuel' j))

/-- The canonical value of node `i`: the tensor the original forward pass
produced at that node (deterministic op set, spec section 4.5). -/
def valAt {V : Type} (S : OpSem V) (g : Graph V) (i : Nat) : V :=
  valFuel S g i i

/-- Modelled from the spec: `uniform_placement` (src/core/checkpoint.cpp is
absent; README.md lines 48-56 and spec section 4.3): number the nodes
0..N-1 in topological order with the root last and mark node i as a
checkpoint iff (i mod k = 0) or i = N-1; leaves are never marked
(spec section 4.3 contract, and README.md's test marks only 3 nodes of
the 7-node interval-2 chain, which requires the leaf at index 0 to be
skipped).  Marking never un-sets an existing checkpoint flag. -/
def uniform_placement {V : Type} (g : Graph V) (k : Nat) (s : St V) : St V :=
  fun i =>
    if decide (i < g.length) && !(leafAt g i) && (decide (i % k = 0) || decide (i = g.length - 1)) then
      { s i with isCheckpoint := true }
    else s i

/-- Checkpoint placement policies exposed by the CheckpointManager
(README.md usage examples; Manual marking is a no-op of the analysis). -/
inductive CheckpointPolicy where
  | Manual
  | Uniform (k : Nat)

/-- Modelled from the spec: `analyze_and_mark` dispatches to the selected
placement strategy (spec section 4.7; Manual is a no-op). -/
def analyze_and_mark {V : Type} (p : CheckpointPolicy) (g : Graph V) (s : St V) : St V :=
  match p with
  | .Manual => s
  | .Uniform k => uniform_placement g k s

/-- Modelled from the spec: `delete_unmarked_values` (src/core/checkpoint.cpp
is absent; README.md lines 87-106): visit each node once; skip checkpoints,
skip leaves, skip already-deleted nodes; otherwise cache the shape, release
the value (empty-tensor state), and set value_deleted.  Each node's
deletion is independent of the others (spec section 4.4), so the pass is a
pointwise state transformation. -/
def delete_unmarked_values {V : Type} (S : OpSem V) (g : Graph V) (s : St V) : St V :=
  fun i =>
    match g.get? i with
    | none => s i
    | some nd =>
      if nd.inputs.isEmpty || (s i).isCheckpoint || (s i).valueDeleted then s i
      else
        { s i with
          cachedShape := S.shapeOf ((s i).value.getD S.emptyV)
          value := none
          valueDeleted := true }

/-- Fuel-bounded test for `j` being reachable from `i` through one or more
input edges.  Under `WF` the ids strictly decrease along edges, so fuel
`i + 1` is always enough (`ancB_iff_reach`). -/
def reachFuel {V : Type} (g : Graph V) : Nat → Nat → Nat → Bool
  | 0, _, _ => false
  | fuel + 1, i, j => (inputsOf g i).any (fun m => m == j || reachFuel g fuel m j)

/-- `j` is a strict ancestor of `i` (reachable backward through inputs). -/
def ancB {V : Type} (g : Graph V) (i j : Nat) : Bool :=
  reachFuel g (i + 1) i j

/-- `i` is reachable from `root` (equal to it or a strict ancestor of it):
the node set the engine's topological order from the root contains. -/
def reachableB {V : Type} (g : Graph V) (root i : Nat) : Bool :=
  i == root || ancB g root i

/-- Modelled from the spec: the modified `zero_grad` (src/core/autodiff.cpp
is absent; README.md lines 167-176 quote the implementation): walk the
order reachable from the root; skip nodes without requires_grad; skip
deleted nodes; otherwise set the gradient to zeros of the value's shape. -/
def zero_grad {V : Type} (S : OpSem V) (g : Graph V) (s : St V) : St V :=
  fun i =>
    if decide (i < g.length) && reachableB g (g.length - 1) i then
      if !(requiresGradOf g i) then s i
      else if (s i).valueDeleted then s i
      else { s i with grad := S.zeros (S.shapeOf ((s i).value.getD S.emptyV)) }
    else s i

/-- A node whose value is live: value_deleted = false and the value tensor
is non-empty (spec section 4.5, step 1). -/
def liveNE {V : Type} (s : St V) (i : Nat) : Bool :=
  !(s i).valueDeleted && (s i).value.isSome

/-- BFS worker for the anchor search: FIFO queue, visited list; a live
node is returned the first time it is popped. -/
def bfsFind {V : Type} (g : Graph V) (s : St V) : Nat → List Nat → List Nat → Option Nat
  | 0, _, _ => none
  | _ + 1, [], _ => none
  | fuel + 1, q :: qs, visited =>
    if q ∈ visited then bfsFind g s fuel qs visited
    else if liveNE s q then some q
    else bfsFind g s fuel (qs ++ inputsOf g q) (q :: visited)

/-- Fuel bound for the BFS: queue length plus, for every unvisited node,
one pop plus the maximal number of entries it can enqueue. -/
def bfsFuel {V : Type} (g : Graph V) (q vis : List Nat) : Nat :=
  q.length + Finset.sum ((Finset.range g.length).filter (fun i => i ∉ vis))
    (fun i => 1 + (inputsOf g i).length)

/-- Modelled from the spec: `find_nearest_checkpoint` (src/core/checkpoint.cpp
is absent; spec section 4.5 step 1, README.md lines 114-121, ckpt-1.md
lines 40-48): BFS backward through inputs, seeded with the target's inputs,
returning the first node encountered whose value_deleted is false and whose
value is non-empty; `none` when the inputs are exhausted without finding
one.  A live value — not the is_checkpoint flag — is what makes a node an
anchor (ckpt-1.md: "If a parent has data, proceed"), which is what lets a
live leaf anchor a replay and is required for README.md's passing
gradient-equivalence tests. -/
def find_nearest_checkpoint {V : Type} (g : Graph V) (s : St V) (t : Nat) : Option Nat :=
  bfsFind g s (bfsFuel g (inputsOf g t) []) (inputsOf g t) []

/-- Recomputation errors (spec section 7).  `MissingInputValue` models the
replay-loop assertion that every input of a replayed node is materialized
(spec section 4.5 step 3). -/
inductive CkptError where
  | NoCheckpointReachable
  | UnsupportedOpDuringRecompute (op : Op)
  | MissingInputValue (node : Nat)
deriving DecidableEq

/-- Gather the materialized values of a list of nodes; `none` as soon as
one of them is missing (the replay-loop assertion of spec 4.5 step 3). -/
def valsOf {V : Type} (s : St V) : List Nat → Option (List V)
  | [] => some []
  | j :: js =>
    match (s j).value, valsOf s js with
    | some v, some vs => some (v :: vs)
    | _, _ => none

/-- Modelled from the spec: `execute_forward_op` (src/core/checkpoint.cpp is
absent; README.md lines 130-138): re-execute the forward operation of one
node from its inputs' materialized values; an op with no dispatch entry is
the fatal UnsupportedOpDuringRecompute error. -/
def execute_forward_op {V : Type} (S : OpSem V) (g : Graph V) (s : St V) (i : Nat) :
    Except CkptError (St V) :=
  match g.get? i with
  | none => .error (.MissingInputValue i)
  | some nd =>
    if supported nd.op then
      match valsOf s nd.inputs with
      | none => .error (.MissingInputValue i)
      | some vals =>
        .ok (upd s i { s i with value := some (S.eval nd.op vals), valueDeleted := false })
    else .error (.UnsupportedOpDuringRecompute nd.op)

/-- Modelled from the spec: `build_forward_path` (src/core/checkpoint.cpp is
absent; README.md lines 123-128, spec section 4.5 step 2): the set of
deleted nodes that must be materialized for the target — the deleted strict
ancestors of the target together with the target itself — listed in
topological order, so every node's inputs appear before it. -/
def build_forward_path {V : Type} (g : Graph V) (s : St V) (t : Nat) : List Nat :=
  (List.range (t + 1)).filter (fun j => (j == t || ancB g t j) && (s j).valueDeleted)

/-- Modelled from the spec: `recompute_node` (src/core/checkpoint.cpp is
absent; README.md lines 140-147, spec section 4.5): a no-op when the target
is not deleted; otherwise locate the nearest live anchor (failing with
NoCheckpointReachable when there is none), build the forward path, and
re-execute every node on it in order, marking each as no longer deleted. -/
def recompute_node {V : Type} (S : OpSem V) (g : Graph V) (s : St V) (t : Nat) :
    Except CkptError (St V) :=
  if (s t).valueDeleted then
    match find_nearest_checkpoint g s t with
    | none => .error .NoCheckpointReachable
    | some _ => (build_forward_path g s t).foldlM (fun st i => execute_forward_op S g st i) s
  else .ok s

/-- Modelled from the spec: the hook run before the engine reads a node's
own value (README.md lines 149-157: before processing each node, if
value_deleted then recompute). -/
def ensure_live {V : Type} (S : OpSem V) (g : Graph V) (s : St V) (i : Nat) :
    Except CkptError (St V) :=
  if (s i).valueDeleted then recompute_node S g s i else .ok s

/-- Modelled from the spec: the hook run before the engine propagates
gradients to a node's inputs (README.md lines 158-165: for each input, if
value_deleted then recompute). -/
def ensure_inputs_live {V : Type} (S : OpSem V) (g : Graph V) (s : St V) (i : Nat) :
    Except CkptError (St V) :=
  (inputsOf g i).foldlM
    (fun st j => if (st j).valueDeleted then recompute_node S g st j else .ok st) s

/-- One reverse-sweep visit: accumulate the VJP contribution of node `i`
into each of its inputs' gradient buffers, reading the materialized input
and output values. -/
def accumulate_step {V : Type} (S : OpSem V) (g : Graph V) (s : St V) (i : Nat) : St V :=
  match g.get? i with
  | none => s
  | some nd =>
    let inVals := nd.inputs.map (fun j => (s j).value.getD S.emptyV)
    let outVal := (s i).value.getD S.emptyV
    let gi := (s i).grad
    nd.inputs.enum.foldl
      (fun st kj =>
        upd st kj.2 { st kj.2 with grad := S.addG (st kj.2).grad (S.vjp nd.op inVals outVal gi kj.1) })
      s

/-- One node visit of the backward pass with the checkpoint hooks
installed (README.md lines 149-165). -/
def backward_visit {V : Type} (S : OpSem V) (g : Graph V) (s : St V) (i : Nat) :
    Except CkptError (St V) :=
  match ensure_live S g s i with
  | .error e => .error e
  | .ok s1 =>
    match ensure_inputs_live S g s1 i with
    | .error e => .error e
    | .ok s2 => .ok (accumulate_step S g s2 i)

/-- The node ids reachable from the root, in topological (ascending id)
order: the order the engine caches for the backward sweep. -/
def reachList {V : Type} (g : Graph V) : List Nat :=
  (List.range g.length).filter (reachableB g (g.length - 1))

/-- Modelled from the spec: `backward(root)` (src/core/autodiff.cpp is
absent; README.md lines 149-165): seed the root gradient with one, then
visit the root-reachable nodes in reverse topological order; each visit
runs the two checkpoint hooks and then accumulates VJP contributions. -/
def backward {V : Type} (S : OpSem V) (g : Graph V) (s : St V) : Except CkptError (St V) :=
  let root := g.length - 1
  (reachList g).reverse.foldlM (backward_visit S g) (upd s root { s root with grad := S.one })

/-- Whether an Except result is a success. -/
def exceptOk {ε α : Type} : Except ε α → Bool
  | .ok _ => true
  | .error _ => false

/-- Gradient of node `i` in a backward-pass result (`none` on failure). -/
def gradAt {V : Type} (r : Except CkptError (St V)) (i : Nat) : Option V :=
  match r with
  | .ok s => some ((s i).grad)
  | .error _ => none

/-- Value of node `i` in a recomputation result (`none` on failure). -/
def valueAt {V : Type} (r : Except CkptError (St V)) (i : Nat) : Option (Option V) :=
  match r with
  | .ok s => some ((s i).value)
  | .error _ => none

/-- value_deleted flag of node `i` in a recomputation result. -/
def deletedAt {V : Type} (r : Except CkptError (St V)) (i : Nat) : Option Bool :=
  match r with
  | .ok s => some ((s i).valueDeleted)
  | .error _ => none

/-! ### RNG-aware forward model (the stubbed stochastic-op path)

ckpt-1.md (lines 52-58) records that the RNG-state capture and restore
around recomputation is stubbed out: a stochastic op replayed during the
backward pass draws from whatever RNG stream is current, not the stream
the original forward pass used, and no check or refusal exists anywhere
in deletion or recomputation (there is no StochasticOpOnDeletedPath error
in the code).  The following small model makes the RNG stream explicit to
exhibit this behaviour on integer tensors. -/

/-- Modelled from the spec: forward evaluation with an explicit RNG stream
id; Dropout's output depends on the stream, deterministic ops ignore it
(ckpt-1.md: stochastic ops "will not produce the same output during the
recomputed forward pass"). -/
def rngEval : Op → List Int → Nat → Int
  | .Dropout, vals, seed => if seed % 2 = 0 then vals.foldl (· + ·) 0 else 0
  | _, vals, _ => vals.foldl (· + ·) 0

/-- Re-execution of one forward op in the RNG-aware model: the dispatch
covers the deterministic set and the stochastic ops, and — faithful to the
stub — simply evaluates a stochastic op under the current stream, with no
StochasticOpOnDeletedPath refusal. -/
def execute_forward_op_rng (g : Graph Int) (s : St Int) (seed : Nat) (i : Nat) :
    Except CkptError (St Int) :=
  match g.get? i with
  | none => .error (.MissingInputValue i)
  | some nd =>
    if supported nd.op || stochastic nd.op then
      match valsOf s nd.inputs with
      | none => .error (.MissingInputValue i)
      | some vals =>
        .ok (upd s i { s i with value := some (rngEval nd.op vals seed), valueDeleted := false })
    else .error (.UnsupportedOpDuringRecompute nd.op)

/-- `recompute_node` in the RNG-aware model: identical control flow to
`recompute_node`, replaying under the RNG stream current at backward time
(ckpt-1.md: no RNG state is restored). -/
def recompute_node_rng (g : Graph Int) (s : St Int) (seed : Nat) (t : Nat) :
    Except CkptError (St Int) :=
  if (s t).valueDeleted then
    match find_nearest_checkpoint g s t with
    | none => .error .NoCheckpointReachable
    | some _ => (build_forward_path g s t).foldlM (fun st i => execute_forward_op_rng g st seed i) s
  else .ok s

/-! ### Propositional reachability and state predicates -/

/-- `Reach g i j`: node `j` is a strict ancestor of node `i`, i.e. it is
reachable from `i` through one or more input edges. -/
inductive Reach {V : Type} (g : Graph V) : Nat → Nat → Prop where
  | single {i j : Nat} : j ∈ inputsOf g i → Reach g i j
  | cons {i m j : Nat} : m ∈ inputsOf g i → Reach g m j → Reach g i j

/-- `a` is in the list `L` or reachable from a member of `L` (the
invariant shape of the BFS frontier). -/
def AncFromL {V : Type} (g : Graph V) (L : List Nat) (a : Nat) : Prop :=
  a ∈ L ∨ ∃ x ∈ L, Reach g x a

/-- State consistency: every live (non-deleted) node in range holds the
canonical forward value, and no leaf is ever deleted (invariant I2). -/
def GoodS {V : Type} (S : OpSem V) (g : Graph V) (s : St V) : Prop :=
  (∀ i, i < g.length → (s i).valueDeleted = false → (s i).value = some (valAt S g i)) ∧
  (∀ i, i < g.length → inputsOf g i = [] → (s i).valueDeleted = false)

/-- The state right after a completed forward pass (and the state the
baseline backward pass runs on): nothing deleted, every in-range node
holding its canonical value. -/
def AllLive {V : Type} (S : OpSem V) (g : Graph V) (s : St V) : Prop :=
  ∀ i, i < g.length → (s i).valueDeleted = false ∧ (s i).value = some (valAt S g i)

/-- `s'` differs from `s` at most in is_checkpoint flags: what any
checkpoint-placement pass (C3) is allowed to change. -/
def MarksOnly {V : Type} (s s' : St V) : Prop :=
  ∀ i, (s' i).valueDeleted = (s i).valueDeleted ∧ (s' i).value = (s i).value ∧
    (s' i).grad = (s i).grad ∧ (s' i).cachedShape = (s i).cachedShape

/-- Boolean well-formedness check (every edge goes to a smaller id). -/
def wfB {V : Type} (g : Graph V) : Bool :=
  (List.range g.length).all (fun i => (inputsOf g i).all (fun j => decide (j < i)))

/-- Boolean check that every non-leaf node's op has a dispatch entry. -/
def supB {V : Type} (g : Graph V) : Bool :=
  (List.range g.length).all (fun i => leafAt g i || supported (opOf g i))

/-- A fresh forward state with the canonical values materialized and a
given family of initial gradients. -/
def mkFresh {V : Type} (S : OpSem V) (g : Graph V) (gr : Nat → V) : St V :=
  fun i =>
    { isCheckpoint := false
      valueDeleted := false
      value := if i < g.length then some (valAt S g i) else none
      cachedShape := []
      grad := gr i }

/-! ### Concrete integer semantics and example graphs (used by witnesses) -/

/-- A small code for each op tag, to keep the toy integer kernels
injective across ops. -/
def opCode : Op → Int
  | .Leaf => 0 | .Add => 1 | .Sub => 2 | .Mul => 3 | .Div => 4 | .MatMul => 5
  | .ReLU => 6 | .Tanh => 7 | .Exp => 8 | .Log => 9 | .Sigmoid => 10
  | .Transpose => 11 | .Sum => 12 | .Cos => 13 | .Sin => 14 | .Sinh => 15
  | .Cosh => 16 | .Softmax => 17 | .LayerNorm => 18 | .Attention => 19 | .Dropout => 20

/-- A concrete deterministic integer instantiation of the tensor kernels,
used to run the model on explicit inputs. -/
def intSem : OpSem Int where
  eval := fun op vals => vals.foldl (· + ·) (100 * opCode op)
  vjp := fun op vals outv gout k =>
    gout + opCode op + Int.ofNat k + outv + vals.foldl (· + ·) 0
  addG := (· + ·)
  one := 1
  shapeOf := fun v => [v.toNat % 8]
  zeros := fun _ => 0
  emptyV := 0

/-- Scenario-1 chain (spec section 8): leaf x; n1 = x + c; n2 = n1 * c;
n3 = n2 + c; n4 = n3 * c; n5 = sum(n4) = root.  Ids 0..5 in topological
order, the leaf at id 0, the root last. -/
def chainG : Graph Int :=
  [ { op := .Leaf, inputs := [], requiresGrad := true, payload := 3 },
    { op := .Add, inputs := [0], requiresGrad := true, payload := 0 },
    { op := .Mul, inputs := [1], requiresGrad := true, payload := 0 },
    { op := .Add, inputs := [2], requiresGrad := true, payload := 0 },
    { op := .Mul, inputs := [3], requiresGrad := true, payload := 0 },
    { op := .Sum, inputs := [4], requiresGrad := true, payload := 0 } ]

/-- Scenario-4 graph (spec section 8): a = leaf; b = exp(a); c = sum(b). -/
def expG : Graph Int :=
  [ { op := .Leaf, inputs := [], requiresGrad := true, payload := 5 },
    { op := .Exp, inputs := [0], requiresGrad := true, payload := 0 },
    { op := .Sum, inputs := [1], requiresGrad := true, payload := 0 } ]

/-- Scenario-4 state: fresh forward state with b's value forced deleted
and nothing marked as a checkpoint (the leaf keeps its live value). -/
def expSt : St Int :=
  fun i =>
    if i = 1 then
      { isCheckpoint := false, valueDeleted := true, value := none,
        cachedShape := [], grad := 0 }
    else mkFresh intSem expG (fun _ => 0) i

/-- Scenario-4 state with the leaf's value also released: no ancestor of b
holds a live value any more. -/
def expStDead : St Int :=
  fun i =>
    if i = 0 then
      { isCheckpoint := false, valueDeleted := true, value := none,
        cachedShape := [], grad := 0 }
    else expSt i

/-- A 3-node graph whose middle node is a Sigmoid: x; s = sigmoid(x);
r = sum(s) (scenario-5 shape, with Sigmoid as the op missing from the
dispatch table). -/
def sigG : Graph Int :=
  [ { op := .Leaf, inputs := [], requiresGrad := true, payload := 2 },
    { op := .Sigmoid, inputs := [0], requiresGrad := true, payload := 0 },
    { op := .Sum, inputs := [1], requiresGrad := true, payload := 0 } ]

/-- sigG with the Sigmoid node's value deleted. -/
def sigSt : St Int :=
  fun i =>
    if i = 1 then
      { isCheckpoint := false, valueDeleted := true, value := none,
        cachedShape := [], grad := 0 }
    else mkFresh intSem sigG (fun _ => 0) i

/-- Dropout graph for the RNG model: a = leaf 5; b = dropout(a);
c = sum(b). -/
def dropG : Graph Int :=
  [ { op := .Leaf, inputs := [], requiresGrad := true, payload := 5 },
    { op := .Dropout, inputs := [0], requiresGrad := true, payload := 0 },
    { op := .Sum, inputs := [1], requiresGrad := true, payload := 0 } ]

/-- dropG right after the original forward pass under RNG stream 0 (the
Dropout kept its input: b = 5), with the root marked as a checkpoint. -/
def dropFresh : St Int :=
  fun i =>
    if i = 2 then
      { isCheckpoint := true, valueDeleted := false, value := some 5,
        cachedShape := [], grad := 0 }
    else
      { isCheckpoint := false, valueDeleted := false, value := some 5,
        cachedShape := [], grad := 0 }

/-- A state for zero_grad tests: expG fresh except n1 (requires_grad) is
deleted with cached shape [4] and a stale nonzero gradient. -/
def zgSt : St Int :=
  fun i =>
    if i = 1 then
      { isCheckpoint := false, valueDeleted := true, value := none,
        cachedShape := [4], grad := 7 }
    else mkFresh intSem expG (fun _ => 7) i

/-! ## Basic state and evaluation lemmas -/

theorem upd_self {V : Type} (s : St V) (i : Nat) (ns : NodeState V) : upd s i ns i = ns := by
  simp [upd]

theorem upd_other {V : Type} (s : St V) (i j : Nat) (ns : NodeState V) (h : j ≠ i) :
    upd s i ns j = s j := by
  simp [upd, h]

theorem inputsOf_of_get {V : Type} {g : Graph V} {i : Nat} {nd : Nd V}
    (h : g.get? i = some nd) : inputsOf g i = nd.inputs := by
  simp only [inputsOf, h, Option.map_some', Option.getD_some]

theorem inputsOf_of_none {V : Type} {g : Graph V} {i : Nat}
    (h : g.get? i = none) : inputsOf g i = [] := by
  simp only [inputsOf, h, Option.map_none', Option.getD_none]

theorem get_of_inputs_ne {V : Type} {g : Graph V} {i : Nat}
    (h : inputsOf g i ≠ []) : ∃ nd, g.get? i = some nd ∧ i < g.length := by
  cases hg : g.get? i with
  | none => exact absurd (inputsOf_of_none hg) h
  | some nd => exact ⟨nd, rfl, List.get?_eq_some.mp hg |>.1⟩

theorem input_lt {V : Type} {g : Graph V} (hwf : WF g) {i j : Nat}
    (h : j ∈ inputsOf g i) : j < i := by
  cases hg : g.get? i with
  | none => rw [inputsOf_of_none hg] at h; cases h
  | some nd => exact hwf i nd hg j (by rwa [inputsOf_of_get hg] at h)

theorem valsOf_eq_map {V : Type} (s : St V) (h : Nat → V) :
    ∀ l : List Nat, (∀ j ∈ l, (s j).value = some (h j)) → valsOf s l = some (l.map h) := by
  intro l
  induction l with
  | nil => intro _; rfl
  | cons x xs ih =>
    intro hall
    have hx : (s x).value = some (h x) := hall x (List.mem_cons_self x xs)
    have hxs := ih (fun y hy => hall y (List.mem_cons_of_mem x hy))
    simp [valsOf, hx, hxs]

theorem valFuel_congr {V : Type} (S : OpSem V) (g : Graph V) (hwf : WF g) :
    ∀ i f f', i ≤ f → i ≤ f' → valFuel S g f i = valFuel S g f' i := by
  intro i
  induction i using Nat.strong_induction_on with
  | _ i ih =>
    intro f f' hf hf'
    unfold valFuel
    cases hg : g.get? i with
    | none => rfl
    | some nd =>
      by_cases hleaf : nd.inputs.isEmpty
      · simp [hleaf]
      · have hne : nd.inputs ≠ [] := by simpa [List.isEmpty_iff] using hleaf
        obtain ⟨j0, hj0⟩ : ∃ j0, j0 ∈ nd.inputs := by
          cases he : nd.inputs with
          | nil => exact absurd he hne
          | cons a l => exact ⟨a, by simp [he]⟩
        have hipos : 0 < i := Nat.pos_of_ne_zero (by
          intro h0
          have := hwf i nd hg j0 hj0
          omega)
        obtain ⟨f0, rfl⟩ : ∃ f0, f = f0 + 1 := ⟨f - 1, by omega⟩
        obtain ⟨f1, rfl⟩ : ∃ f1, f' = f1 + 1 := ⟨f' - 1, by omega⟩
        simp only [hleaf, if_false]
        refine congrArg (S.eval nd.op) (List.map_congr_left ?_)
        intro j hj
        have hji : j < i := hwf i nd hg j hj
        exact ih j hji f0 f1 (by omega) (by omega)

theorem valAt_leaf {V : Type} (S : OpSem V) (g : Graph V) {i : Nat} {nd : Nd V}
    (hg : g.get? i = some nd) (h : nd.inputs = []) : valAt S g i = nd.payload := by
  unfold valAt valFuel
  rw [hg]
  simp [h]

theorem valAt_eval {V : Type} (S : OpSem V) (g : Graph V) (hwf : WF g) {i : Nat} {nd : Nd V}
    (hg : g.get? i = some nd) (h : nd.inputs ≠ []) :
    valAt S g i = S.eval nd.op (nd.inputs.map (valAt S g)) := by
  obtain ⟨j0, hj0⟩ : ∃ j0, j0 ∈ nd.inputs := by
    cases he : nd.inputs with
    | nil => exact absurd he h
    | cons a l => exact ⟨a, by simp [he]⟩
  have hipos : 0 < i := Nat.pos_of_ne_zero (by
    intro h0
    have := hwf i nd hg j0 hj0
    omega)
  obtain ⟨i0, rfl⟩ : ∃ i0, i = i0 + 1 := ⟨i - 1, by omega⟩
  have hleaf : ¬ nd.inputs.isEmpty := by simpa [List.isEmpty_iff] using h
  have step : valAt S g (i0 + 1) = S.eval nd.op (nd.inputs.map (fun j => valFuel S g i0 j)) := by
    show valFuel S g (i0 + 1) (i0 + 1) = _
    conv_lhs => unfold valFuel
    rw [hg]
    simp [hleaf]
  rw [step]
  refine congrArg (S.eval nd.op) (List.map_congr_left ?_)
  intro j hj
  have hji : j < i0 + 1 := hwf _ nd hg j hj
  exact valFuel_congr S g hwf j i0 j (by omega) le_rfl

/-! ## Reachability lemmas -/

theorem Reach.lt {V : Type} {g : Graph V} (hwf : WF g) {i j : Nat}
    (h : Reach g i j) : j < i := by
  induction h with
  | single hm => exact input_lt hwf hm
  | cons hm _ ih => exact lt_trans ih (input_lt hwf hm)

theorem reach_elim {V : Type} {g : Graph V} {i a : Nat} (h : Reach g i a) :
    ∃ j ∈ inputsOf g i, j = a ∨ Reach g j a := by
  cases h with
  | single hm => exact ⟨a, hm, Or.inl rfl⟩
  | cons hm hr => exact ⟨_, hm, Or.inr hr⟩

theorem reach_append {V : Type} {g : Graph V} {t i j : Nat}
    (h : Reach g t i) (hj : j ∈ inputsOf g i) : Reach g t j := by
  induction h with
  | single hm => exact Reach.cons hm (Reach.single hj)
  | cons hm _ ih => exact Reach.cons hm (ih hj)

theorem reachFuel_mono {V : Type} (g : Graph V) :
    ∀ f f' i j, f ≤ f' → reachFuel g f i j = true → reachFuel g f' i j = true := by
  intro f
  induction f with
  | zero => intro f' i j _ h; simp [reachFuel] at h
  | succ f ih =>
    intro f' i j hle h
    obtain ⟨f1, rfl⟩ : ∃ f1, f' = f1 + 1 := ⟨f' - 1, by omega⟩
    simp only [reachFuel, List.any_eq_true] at h ⊢
    obtain ⟨m, hm, hcase⟩ := h
    refine ⟨m, hm, ?_⟩
    simp only [Bool.or_eq_true] at hcase ⊢
    cases hcase with
    | inl he => exact Or.inl he
    | inr hr => exact Or.inr (ih f1 m j (by omega) hr)

theorem reachFuel_sound {V : Type} (g : Graph V) :
    ∀ f i j, reachFuel g f i j = true → Reach g i j := by
  intro f
  induction f with
  | zero => intro i j h; simp [reachFuel] at h
  | succ f ih =>
    intro i j h
    simp only [reachFuel, List.any_eq_true, Bool.or_eq_true, beq_iff_eq] at h
    obtain ⟨m, hm, hcase⟩ := h
    cases hcase with
    | inl he => exact he ▸ Reach.single hm
    | inr hr => exact Reach.cons hm (ih m j hr)

theorem reach_complete {V : Type} {g : Graph V} (hwf : WF g) :
    ∀ i j, Reach g i j → reachFuel g (i + 1) i j = true := by
  intro i
  induction i using Nat.strong_induction_on with
  | _ i ihs =>
    intro j h
    cases h with
    | single hm =>
      simp only [reachFuel, List.any_eq_true, Bool.or_eq_true, beq_iff_eq]
      exact ⟨j, hm, Or.inl rfl⟩
    | cons hm hr =>
      rename_i m
      have hmi : m < i := input_lt hwf hm
      have hrec : reachFuel g (m + 1) m j = true := ihs m hmi j hr
      simp only [reachFuel, List.any_eq_true, Bool.or_eq_true]
      exact ⟨m, hm, Or.inr (reachFuel_mono g (m + 1) i m j (by omega) hrec)⟩

theorem ancB_iff {V : Type} {g : Graph V} (hwf : WF g) (i j : Nat) :
    ancB g i j = true ↔ Reach g i j :=
  ⟨fun h => reachFuel_sound g (i + 1) i j h, fun h => reach_complete hwf i j h⟩

theorem reachableB_iff {V : Type} {g : Graph V} (hwf : WF g) (r i : Nat) :
    reachableB g r i = true ↔ (i = r ∨ Reach g r i) := by
  simp only [reachableB, Bool.or_eq_true, beq_iff_eq, ancB_iff hwf]

/-! ## BFS anchor-search lemmas -/

theorem reach_closed {V : Type} {g : Graph V} {vis : List Nat}
    (hcl : ∀ v ∈ vis, ∀ j ∈ inputsOf g v, j ∈ vis) :
    ∀ x a, Reach g x a → x ∈ vis → a ∈ vis := by
  intro x a h
  induction h with
  | single hm => intro hx; exact hcl _ hx _ hm
  | cons hm _ ih => intro hx; exact ih (hcl _ hx _ hm)

theorem closed_case {V : Type} {g : Graph V} {s : St V} {vis : List Nat}
    (hv1 : ∀ v ∈ vis, liveNE s v = false)
    (hcl : ∀ v ∈ vis, ∀ j ∈ inputsOf g v, j ∈ vis) :
    ∀ a, AncFromL g vis a → liveNE s a = false := by
  intro a ha
  cases ha with
  | inl h => exact hv1 a h
  | inr h =>
    obtain ⟨x, hx, hr⟩ := h
    exact hv1 a (reach_closed hcl x a hr hx)

theorem bfsFuel_stale {V : Type} (g : Graph V) (qs vis : List Nat) (x : Nat) :
    bfsFuel g qs vis + 1 = bfsFuel g (x :: qs) vis := by
  unfold bfsFuel
  simp only [List.length_cons]
  omega

theorem bfsFuel_fresh {V : Type} (g : Graph V) (qs vis : List Nat) (x : Nat)
    (hx : x < g.length) (hnv : x ∉ vis) :
    bfsFuel g (qs ++ inputsOf g x) (x :: vis) + 2 = bfsFuel g (x :: qs) vis := by
  have hxmem : x ∈ (Finset.range g.length).filter (fun i => i ∉ vis) := by
    simp [Finset.mem_filter, Finset.mem_range, hx, hnv]
  have hers : ((Finset.range g.length).filter (fun i => i ∉ vis)).erase x
      = (Finset.range g.length).filter (fun i => i ∉ x :: vis) := by
    ext i
    simp only [Finset.mem_erase, Finset.mem_filter, Finset.mem_range, List.mem_cons]
    tauto
  have hsum := Finset.sum_erase_add
    ((Finset.range g.length).filter (fun i => i ∉ vis))
    (fun i => 1 + (inputsOf g i).length) hxmem
  rw [hers] at hsum
  simp only [] at hsum
  unfold bfsFuel
  simp only [List.length_append, List.length_cons]
  omega

theorem bfsFind_sound {V : Type} (g : Graph V) (s : St V) (t : Nat) :
    ∀ f (q vis : List Nat), (∀ x ∈ q, Reach g t x) →
      ∀ a, bfsFind g s f q vis = some a → Reach g t a ∧ liveNE s a = true := by
  intro f
  induction f with
  | zero => intro q vis _ a h; simp [bfsFind] at h
  | succ f ih =>
    intro q vis hq a h
    cases q with
    | nil => simp [bfsFind] at h
    | cons x qs =>
      have hunf : bfsFind g s (f + 1) (x :: qs) vis
          = if x ∈ vis then bfsFind g s f qs vis
            else if liveNE s x then some x
            else bfsFind g s f (qs ++ inputsOf g x) (x :: vis) := rfl
      by_cases hv : x ∈ vis
      · rw [hunf, if_pos hv] at h
        exact ih qs vis (fun y hy => hq y (List.mem_cons_of_mem x hy)) a h
      · by_cases hl : liveNE s x = true
        · rw [hunf, if_neg hv, if_pos hl] at h
          obtain rfl : x = a := Option.some.inj h
          exact ⟨hq x (List.mem_cons_self x qs), hl⟩
        · rw [hunf, if_neg hv, if_neg hl] at h
          refine ih (qs ++ inputsOf g x) (x :: vis) ?_ a h
          intro y hy
          rcases List.mem_append.mp hy with hy1 | hy2
          · exact hq y (List.mem_cons_of_mem x hy1)
          · exact reach_append (hq x (List.mem_cons_self x qs)) hy2

theorem bfsFind_none {V : Type} {g : Graph V} (s : St V) (hwf : WF g) :
    ∀ f (q vis : List Nat),
      (∀ x ∈ q, x < g.length) →
      (∀ v ∈ vis, liveNE s v = false) →
      (∀ v ∈ vis, ∀ j ∈ inputsOf g v, j ∈ vis ∨ j ∈ q) →
      bfsFuel g q vis ≤ f →
      bfsFind g s f q vis = none →
      ∀ a, AncFromL g (q ++ vis) a → liveNE s a = false := by
  intro f
  induction f with
  | zero =>
    intro q vis hq hv1 hv2 hfuel _ a ha
    have hqnil : q = [] := by
      have hlen : q.length = 0 := by
        unfold bfsFuel at hfuel
        omega
      exact List.length_eq_zero.mp hlen
    subst hqnil
    exact closed_case hv1
      (fun v hv j hj => (hv2 v hv j hj).resolve_right (fun hc => by cases hc))
      a (by simpa using ha)
  | succ f ih =>
    intro q vis hq hv1 hv2 hfuel h a ha
    cases q with
    | nil =>
      exact closed_case hv1
        (fun v hv j hj => (hv2 v hv j hj).resolve_right (fun hc => by cases hc))
        a (by simpa using ha)
    | cons x qs =>
      have hunf : bfsFind g s (f + 1) (x :: qs) vis
          = if x ∈ vis then bfsFind g s f qs vis
            else if liveNE s x then some x
            else bfsFind g s f (qs ++ inputsOf g x) (x :: vis) := rfl
      by_cases hv : x ∈ vis
      · rw [hunf, if_pos hv] at h
        have hfuel' : bfsFuel g qs vis ≤ f := by
          have := bfsFuel_stale g qs vis x
          omega
        have hv2' : ∀ v ∈ vis, ∀ j ∈ inputsOf g v, j ∈ vis ∨ j ∈ qs := by
          intro v hvm j hj
          rcases hv2 v hvm j hj with h1 | h2
          · exact Or.inl h1
          · rcases List.mem_cons.mp h2 with rfl | h3
            · exact Or.inl hv
            · exact Or.inr h3
        refine ih qs vis (fun y hy => hq y (List.mem_cons_of_mem x hy)) hv1 hv2' hfuel' h a ?_
        rcases ha with hm | ⟨x', hx', hr⟩
        · rcases List.mem_append.mp hm with hm1 | hm2
          · rcases List.mem_cons.mp hm1 with rfl | hm3
            · exact Or.inl (List.mem_append.mpr (Or.inr hv))
            · exact Or.inl (List.mem_append.mpr (Or.inl hm3))
          · exact Or.inl (List.mem_append.mpr (Or.inr hm2))
        · rcases List.mem_append.mp hx' with hm1 | hm2
          · rcases List.mem_cons.mp hm1 with rfl | hm3
            · exact Or.inr ⟨x', List.mem_append.mpr (Or.inr hv), hr⟩
            · exact Or.inr ⟨x', List.mem_append.mpr (Or.inl hm3), hr⟩
          · exact Or.inr ⟨x', List.mem_append.mpr (Or.inr hm2), hr⟩
      · by_cases hl : liveNE s x = true
        · rw [hunf, if_neg hv, if_pos hl] at h
          cases h
        · rw [hunf, if_neg hv, if_neg hl] at h
          have hxN : x < g.length := hq x (List.mem_cons_self x qs)
          have hq' : ∀ y ∈ qs ++ inputsOf g x, y < g.length := by
            intro y hy
            rcases List.mem_append.mp hy with hy1 | hy2
            · exact hq y (List.mem_cons_of_mem x hy1)
            · exact lt_trans (input_lt hwf hy2) hxN
          have hv1' : ∀ v ∈ x :: vis, liveNE s v = false := by
            intro v hvm
            rcases List.mem_cons.mp hvm with rfl | hm
            · exact Bool.not_eq_true _ ▸ (by simpa using hl)
            · exact hv1 v hm
          have hv2' : ∀ v ∈ x :: vis, ∀ j ∈ inputsOf g v, j ∈ x :: vis ∨ j ∈ qs ++ inputsOf g x := by
            intro v hvm j hj
            rcases List.mem_cons.mp hvm with rfl | hm
            · exact Or.inr (List.mem_append.mpr (Or.inr hj))
            · rcases hv2 v hm j hj with h1 | h2
              · exact Or.inl (List.mem_cons_of_mem x h1)
              · rcases List.mem_cons.mp h2 with rfl | h3
                · exact Or.inl (List.mem_cons_self j vis)
                · exact Or.inr (List.mem_append.mpr (Or.inl h3))
          have hfuel' : bfsFuel g (qs ++ inputsOf g x) (x :: vis) ≤ f := by
            have := bfsFuel_fresh g qs vis x hxN hv
            omega
          refine ih (qs ++ inputsOf g x) (x :: vis) hq' hv1' hv2' hfuel' h a ?_
          rcases ha with hm | ⟨x', hx', hr⟩
          · rcases List.mem_append.mp hm with hm1 | hm2
            · rcases List.mem_cons.mp hm1 with rfl | hm3
              · exact Or.inl (List.mem_append.mpr (Or.inr (List.mem_cons_self a vis)))
              · exact Or.inl (List.mem_append.mpr (Or.inl (List.mem_append.mpr (Or.inl hm3))))
            · exact Or.inl (List.mem_append.mpr (Or.inr (List.mem_cons_of_mem x hm2)))
          · rcases List.mem_append.mp hx' with hm1 | hm2
            · rcases List.mem_cons.mp hm1 with rfl | hm3
              · obtain ⟨j, hj, hcase⟩ := reach_elim hr
                have hjmem : j ∈ (qs ++ inputsOf g x') ++ x' :: vis :=
                  List.mem_append.mpr (Or.inl (List.mem_append.mpr (Or.inr hj)))
                rcases hcase with rfl | hr'
                · exact Or.inl hjmem
                · exact Or.inr ⟨j, hjmem, hr'⟩
              · exact Or.inr ⟨x', List.mem_append.mpr (Or.inl (List.mem_append.mpr (Or.inl hm3))), hr⟩
            · exact Or.inr ⟨x', List.mem_append.mpr (Or.inr (List.mem_cons_of_mem x hm2)), hr⟩

theorem find_nearest_some {V : Type} {g : Graph V} {s : St V} {t a : Nat}
    (h : find_nearest_checkpoint g s t = some a) : Reach g t a ∧ liveNE s a = true := by
  refine bfsFind_sound g s t _ _ _ ?_ a h
  intro x hx
  exact Reach.single hx

theorem find_nearest_none {V : Type} {g : Graph V} {s : St V} (hwf : WF g) {t : Nat}
    (h : find_nearest_checkpoint g s t = none) :
    ∀ a, Reach g t a → liveNE s a = false := by
  intro a ha
  obtain ⟨j, hj, hcase⟩ := reach_elim ha
  have hq : ∀ x ∈ inputsOf g t, x < g.length := by
    intro x hx
    have hne : inputsOf g t ≠ [] := by
      intro he
      rw [he] at hx
      cases hx
    obtain ⟨nd, hnd, htN⟩ := get_of_inputs_ne hne
    exact lt_trans (input_lt hwf hx) htN
  refine bfsFind_none s hwf _ _ [] hq (by simp) (by simp) le_rfl h a ?_
  rcases hcase with rfl | hr
  · exact Or.inl (by simpa using hj)
  · exact Or.inr ⟨j, by simpa using hj, hr⟩

/-! ## Leaf ancestors and replay-path lemmas -/

theorem exists_leaf_anc {V : Type} {g : Graph V} (hwf : WF g) :
    ∀ t, inputsOf g t ≠ [] → ∃ a, Reach g t a ∧ inputsOf g a = [] := by
  intro t
  induction t using Nat.strong_induction_on with
  | _ t ih =>
    intro hne
    obtain ⟨j, hj⟩ : ∃ j, j ∈ inputsOf g t := by
      cases he : inputsOf g t with
      | nil => exact absurd he hne
      | cons a l => exact ⟨a, by simp [he]⟩
    have hjt : j < t := input_lt hwf hj
    by_cases hleaf : inputsOf g j = []
    · exact ⟨j, Reach.single hj, hleaf⟩
    · obtain ⟨a, hr, hl⟩ := ih j hjt hleaf
      exact ⟨a, Reach.cons hj hr, hl⟩

theorem mem_path_iff {V : Type} {g : Graph V} (hwf : WF g) (s : St V) (t j : Nat) :
    j ∈ build_forward_path g s t
      ↔ (j < t + 1 ∧ (j = t ∨ Reach g t j) ∧ (s j).valueDeleted = true) := by
  unfold build_forward_path
  rw [List.mem_filter, List.mem_range]
  simp only [Bool.and_eq_true, Bool.or_eq_true, beq_iff_eq, ancB_iff hwf]

theorem path_sorted {V : Type} (g : Graph V) (s : St V) (t : Nat) :
    (build_forward_path g s t).Pairwise (· < ·) := by
  unfold build_forward_path
  exact List.Pairwise.sublist (List.filter_sublist _) (List.pairwise_lt_range (t + 1))

/-! ## Replay correctness -/

theorem replay_inputs_canonical {V : Type} {S : OpSem V} {g : Graph V} (hwf : WF g)
    {s : St V} (hGood : GoodS S g s) {t : Nat} (ht : t < g.length)
    {done resti : List Nat} {sc : St V}
    (hpath : build_forward_path g s t = done ++ resti)
    (h1 : ∀ j, j ∉ done → sc j = s j)
    (h2 : ∀ j ∈ done, sc j = { s j with value := some (valAt S g j), valueDeleted := false })
    {i : Nat} (hhead : ∃ rest', resti = i :: rest')
    {nd : Nd V} (hg : g.get? i = some nd) :
    ∀ j ∈ nd.inputs, (sc j).value = some (valAt S g j) := by
  obtain ⟨rest', rfl⟩ := hhead
  intro j hj
  have hjin : j ∈ inputsOf g i := by rw [inputsOf_of_get hg]; exact hj
  have hji : j < i := input_lt hwf hjin
  have himem : i ∈ build_forward_path g s t := by
    rw [hpath]
    exact List.mem_append.mpr (Or.inr (List.mem_cons_self _ _))
  have hichar := (mem_path_iff hwf s t i).mp himem
  by_cases hdel : (s j).valueDeleted = true
  · have hjt : Reach g t j := by
      rcases hichar.2.1 with rfl | hri
      · exact Reach.single hjin
      · exact reach_append hri hjin
    have hjmem : j ∈ build_forward_path g s t :=
      (mem_path_iff hwf s t j).mpr ⟨by omega, Or.inr hjt, hdel⟩
    have hsorted := path_sorted g s t
    rw [hpath] at hsorted hjmem
    rcases List.mem_append.mp hjmem with hd | hc
    · rw [h2 j hd]
    · exfalso
      rcases List.mem_cons.mp hc with rfl | hr
      · omega
      · have hpr := (List.pairwise_append.mp hsorted).2.1
        have hlt : i < j := (List.pairwise_cons.mp hpr).1 j hr
        omega
  · have hjdone : j ∉ done := by
      intro hd
      have hjp : j ∈ build_forward_path g s t := by
        rw [hpath]
        exact List.mem_append.mpr (Or.inl hd)
      exact hdel ((mem_path_iff hwf s t j).mp hjp).2.2
    rw [h1 j hjdone]
    have hjN : j < g.length := by omega
    simp only [Bool.not_eq_true] at hdel
    exact hGood.1 j hjN hdel

theorem replay_ok {V : Type} {S : OpSem V} {g : Graph V} (hwf : WF g)
    {s : St V} (hGood : GoodS S g s) {t : Nat} (ht : t < g.length)
    (hsup : ∀ i, i < g.length → inputsOf g i ≠ [] → supported (opOf g i) = true) :
    ∀ resti done sc,
      build_forward_path g s t = done ++ resti →
      (∀ j, j ∉ done → sc j = s j) →
      (∀ j ∈ done, sc j = { s j with value := some (valAt S g j), valueDeleted := false }) →
      ∃ s', resti.foldlM (fun st i => execute_forward_op S g st i) sc = .ok s' ∧
        (∀ j, j ∉ build_forward_path g s t → s' j = s j) ∧
        (∀ j ∈ build_forward_path g s t,
          s' j = { s j with value := some (valAt S g j), valueDeleted := false }) := by
  intro resti
  induction resti with
  | nil =>
    intro done sc hpath h1 h2
    refine ⟨sc, rfl, ?_, ?_⟩
    · intro j hj
      refine h1 j (fun hd => hj ?_)
      rw [hpath, List.append_nil]
      exact hd
    · intro j hj
      refine h2 j ?_
      rw [hpath, List.append_nil] at hj
      exact hj
  | cons i rest ih =>
    intro done sc hpath h1 h2
    have himem : i ∈ build_forward_path g s t := by
      rw [hpath]
      exact List.mem_append.mpr (Or.inr (List.mem_cons_self _ _))
    have hichar := (mem_path_iff hwf s t i).mp himem
    have hiN : i < g.length := by omega
    have hidel : (s i).valueDeleted = true := hichar.2.2
    have hileaf : inputsOf g i ≠ [] := by
      intro he
      have hlive := hGood.2 i hiN he
      rw [hlive] at hidel
      cases hidel
    obtain ⟨nd, hg, _⟩ := get_of_inputs_ne hileaf
    have hvals := replay_inputs_canonical hwf hGood ht hpath h1 h2 ⟨rest, rfl⟩ hg
    have hvalsOf : valsOf sc nd.inputs = some (nd.inputs.map (valAt S g)) :=
      valsOf_eq_map sc (valAt S g) nd.inputs hvals
    have hsupi : supported nd.op = true := by
      have hs := hsup i hiN hileaf
      rwa [opOf, hg] at hs
    have hinotdone : i ∉ done := by
      intro hd
      have hsorted := path_sorted g s t
      rw [hpath] at hsorted
      have := (List.pairwise_append.mp hsorted).2.2 i hd i (List.mem_cons_self _ _)
      omega
    have hsci : sc i = s i := h1 i hinotdone
    have hev : S.eval nd.op (nd.inputs.map (valAt S g)) = valAt S g i :=
      (valAt_eval S g hwf hg (by rwa [inputsOf_of_get hg] at hileaf)).symm
    have hexec : execute_forward_op S g sc i
        = .ok (upd sc i { s i with value := some (valAt S g i), valueDeleted := false }) := by
      unfold execute_forward_op
      rw [hg]
      simp only [hsupi, if_true, hvalsOf, hsci, hev]
    obtain ⟨s', hfold, p1, p2⟩ := ih (done ++ [i])
      (upd sc i { s i with value := some (valAt S g i), valueDeleted := false })
      (by rw [hpath]; simp)
      (by
        intro j hj
        have hji : j ≠ i := by
          intro h
          exact hj (by rw [h]; simp)
        rw [upd_other _ _ _ _ hji]
        exact h1 j (fun hd => hj (List.mem_append.mpr (Or.inl hd))))
      (by
        intro j hj
        rcases List.mem_append.mp hj with hd | hs
        · have hji : j ≠ i := by
            intro h
            subst h
            exact hinotdone hd
          rw [upd_other _ _ _ _ hji]
          exact h2 j hd
        · obtain rfl : j = i := by simpa using hs
          rw [upd_self])
    refine ⟨s', ?_, p1, p2⟩
    rw [List.foldlM_cons, hexec]
    exact hfold

theorem replay_props {V : Type} {S : OpSem V} {g : Graph V} (hwf : WF g)
    {s : St V} (hGood : GoodS S g s) {t : Nat} (ht : t < g.length) :
    ∀ resti done sc s',
      build_forward_path g s t = done ++ resti →
      (∀ j, j ∉ done → sc j = s j) →
      (∀ j ∈ done, sc j = { s j with value := some (valAt S g j), valueDeleted := false }) →
      resti.foldlM (fun st i => execute_forward_op S g st i) sc = .ok s' →
      (∀ j, j ∉ build_forward_path g s t → s' j = s j) ∧
      (∀ j ∈ build_forward_path g s t,
        s' j = { s j with value := some (valAt S g j), valueDeleted := false }) := by
  intro resti
  induction resti with
  | nil =>
    intro done sc s' hpath h1 h2 hfold
    have hok : (Except.ok sc : Except CkptError (St V)) = Except.ok s' := hfold
    obtain rfl : sc = s' := Except.ok.inj hok
    constructor
    · intro j hj
      refine h1 j (fun hd => hj ?_)
      rw [hpath, List.append_nil]
      exact hd
    · intro j hj
      refine h2 j ?_
      rw [hpath, List.append_nil] at hj
      exact hj
  | cons i rest ih =>
    intro done sc s' hpath h1 h2 hfold
    have himem : i ∈ build_forward_path g s t := by
      rw [hpath]
      exact List.mem_append.mpr (Or.inr (List.mem_cons_self _ _))
    have hichar := (mem_path_iff hwf s t i).mp himem
    have hiN : i < g.length := by omega
    have hidel : (s i).valueDeleted = true := hichar.2.2
    have hileaf : inputsOf g i ≠ [] := by
      intro he
      have hlive := hGood.2 i hiN he
      rw [hlive] at hidel
      cases hidel
    obtain ⟨nd, hg, _⟩ := get_of_inputs_ne hileaf
    have hvals := replay_inputs_canonical hwf hGood ht hpath h1 h2 ⟨rest, rfl⟩ hg
    have hvalsOf : valsOf sc nd.inputs = some (nd.inputs.map (valAt S g)) :=
      valsOf_eq_map sc (valAt S g) nd.inputs hvals
    have hinotdone : i ∉ done := by
      intro hd
      have hsorted := path_sorted g s t
      rw [hpath] at hsorted
      have := (List.pairwise_append.mp hsorted).2.2 i hd i (List.mem_cons_self _ _)
      omega
    have hsci : sc i = s i := h1 i hinotdone
    have hev : S.eval nd.op (nd.inputs.map (valAt S g)) = valAt S g i :=
      (valAt_eval S g hwf hg (by rwa [inputsOf_of_get hg] at hileaf)).symm
    rw [List.foldlM_cons] at hfold
    cases hex : execute_forward_op S g sc i with
    | error e =>
      rw [hex] at hfold
      cases hfold
    | ok s1 =>
      rw [hex] at hfold
      by_cases hsupi : supported nd.op = true
      case neg =>
        exfalso
        unfold execute_forward_op at hex
        rw [hg] at hex
        simp [hsupi] at hex
      have hexec : execute_forward_op S g sc i
          = .ok (upd sc i { s i with value := some (valAt S g i), valueDeleted := false }) := by
        unfold execute_forward_op
        rw [hg]
        simp only [hsupi, if_true, hvalsOf, hsci, hev]
      have hs1 : s1 = upd sc i { s i with value := some (valAt S g i), valueDeleted := false } :=
        (Except.ok.inj (hexec.symm.trans hex)).symm
      subst hs1
      exact ih (done ++ [i]) _ s'
        (by rw [hpath]; simp)
        (by
          intro j hj
          have hji : j ≠ i := by
            intro h
            exact hj (by rw [h]; simp)
          rw [upd_other _ _ _ _ hji]
          exact h1 j (fun hd => hj (List.mem_append.mpr (Or.inl hd))))
        (by
          intro j hj
          rcases List.mem_append.mp hj with hd | hs
          · have hji : j ≠ i := by
              intro h
              subst h
              exact hinotdone hd
            rw [upd_other _ _ _ _ hji]
            exact h2 j hd
          · obtain rfl : j = i := by simpa using hs
            rw [upd_self])
        hfold

/-! ## Recomputation correctness -/

theorem recompute_noop {V : Type} (S : OpSem V) (g : Graph V) (s : St V) (t : Nat)
    (h : (s t).valueDeleted = false) : recompute_node S g s t = .ok s := by
  unfold recompute_node
  simp [h]

theorem recompute_ok {V : Type} {S : OpSem V} {g : Graph V} (hwf : WF g)
    {s : St V} (hGood : GoodS S g s) {t : Nat} (ht : t < g.length)
    (hdel : (s t).valueDeleted = true)
    (hsup : ∀ i, i < g.length → inputsOf g i ≠ [] → supported (opOf g i) = true) :
    ∃ s', recompute_node S g s t = .ok s' ∧
      (∀ j, j ∉ build_forward_path g s t → s' j = s j) ∧
      (∀ j ∈ build_forward_path g s t,
        s' j = { s j with value := some (valAt S g j), valueDeleted := false }) ∧
      (s' t).valueDeleted = false := by
  have hleaf : inputsOf g t ≠ [] := by
    intro he
    have hl := hGood.2 t ht he
    rw [hl] at hdel
    cases hdel
  have hanchor : find_nearest_checkpoint g s t ≠ none := by
    intro hnone
    obtain ⟨a, har, hal⟩ := exists_leaf_anc hwf t hleaf
    have haN : a < g.length := lt_trans (Reach.lt hwf har) ht
    have halive : (s a).valueDeleted = false := hGood.2 a haN hal
    have hval : (s a).value = some (valAt S g a) := hGood.1 a haN halive
    have hlv : liveNE s a = true := by simp [liveNE, halive, hval]
    have hfalse := find_nearest_none hwf hnone a har
    rw [hlv] at hfalse
    cases hfalse
  obtain ⟨anc, hanc⟩ : ∃ anc, find_nearest_checkpoint g s t = some anc := by
    cases hfa : find_nearest_checkpoint g s t with
    | none => exact absurd hfa hanchor
    | some a => exact ⟨a, rfl⟩
  obtain ⟨s', hfold, p1, p2⟩ := replay_ok hwf hGood ht hsup (build_forward_path g s t) [] s
    (by simp) (fun j _ => rfl) (by intro j hj; cases hj)
  have htmem : t ∈ build_forward_path g s t :=
    (mem_path_iff hwf s t t).mpr ⟨by omega, Or.inl rfl, hdel⟩
  refine ⟨s', ?_, p1, p2, ?_⟩
  · unfold recompute_node
    rw [if_pos hdel, hanc]
    exact hfold
  · rw [p2 t htmem]

theorem recompute_sim {V : Type} {S : OpSem V} {g : Graph V} (hwf : WF g)
    {s : St V} (hGood : GoodS S g s) {t : Nat} (ht : t < g.length)
    (hsup : ∀ i, i < g.length → inputsOf g i ≠ [] → supported (opOf g i) = true) :
    ∃ s', recompute_node S g s t = .ok s' ∧ GoodS S g s' ∧
      (∀ i, (s' i).grad = (s i).grad) ∧
      (∀ i, (s i).valueDeleted = false → s' i = s i) ∧
      (s' t).valueDeleted = false := by
  by_cases hdel : (s t).valueDeleted = true
  · obtain ⟨s', hok, p1, p2, pt⟩ := recompute_ok hwf hGood ht hdel hsup
    refine ⟨s', hok, ⟨?_, ?_⟩, ?_, ?_, pt⟩
    · intro i hiN hlive
      by_cases hip : i ∈ build_forward_path g s t
      · rw [p2 i hip]
      · rw [p1 i hip] at hlive ⊢
        exact hGood.1 i hiN hlive
    · intro i hiN hleafi
      by_cases hip : i ∈ build_forward_path g s t
      · rw [p2 i hip]
      · rw [p1 i hip]
        exact hGood.2 i hiN hleafi
    · intro i
      by_cases hip : i ∈ build_forward_path g s t
      · rw [p2 i hip]
      · rw [p1 i hip]
    · intro i hlive
      have hip : i ∉ build_forward_path g s t := by
        intro hmem
        have := ((mem_path_iff hwf s t i).mp hmem).2.2
        rw [hlive] at this
        cases this
      exact p1 i hip
  · have hlive : (s t).valueDeleted = false := by simpa using hdel
    exact ⟨s, recompute_noop S g s t hlive, hGood, fun _ => rfl, fun _ _ => rfl, hlive⟩

/-! ## Backward-hook lemmas -/

theorem ensure_live_sim {V : Type} {S : OpSem V} {g : Graph V} (hwf : WF g)
    {s : St V} (hGood : GoodS S g s) {i : Nat} (hi : i < g.length)
    (hsup : ∀ k, k < g.length → inputsOf g k ≠ [] → supported (opOf g k) = true) :
    ∃ s', ensure_live S g s i = .ok s' ∧ GoodS S g s' ∧
      (∀ j, (s' j).grad = (s j).grad) ∧
      (∀ j, (s j).valueDeleted = false → s' j = s j) ∧
      (s' i).valueDeleted = false := by
  unfold ensure_live
  by_cases hdel : (s i).valueDeleted = true
  · rw [if_pos hdel]
    obtain ⟨s', hok, hG, hg, hp, ht⟩ := recompute_sim hwf hGood hi hsup
    exact ⟨s', hok, hG, hg, hp, ht⟩
  · have hlive : (s i).valueDeleted = false := by simpa using hdel
    rw [if_neg hdel]
    exact ⟨s, rfl, hGood, fun _ => rfl, fun _ _ => rfl, hlive⟩

theorem ensure_list_sim {V : Type} {S : OpSem V} {g : Graph V} (hwf : WF g)
    (hsup : ∀ k, k < g.length → inputsOf g k ≠ [] → supported (opOf g k) = true) :
    ∀ (l : List Nat), (∀ j ∈ l, j < g.length) → ∀ s, GoodS S g s →
      ∃ s', l.foldlM
          (fun st j => if (st j).valueDeleted then recompute_node S g st j else .ok st) s
          = .ok s' ∧
        GoodS S g s' ∧ (∀ j, (s' j).grad = (s j).grad) ∧
        (∀ j, (s j).valueDeleted = false → s' j = s j) ∧
        (∀ j ∈ l, (s' j).valueDeleted = false) := by
  intro l
  induction l with
  | nil =>
    intro _ s hGood
    exact ⟨s, rfl, hGood, fun _ => rfl, fun _ _ => rfl, by intro j hj; cases hj⟩
  | cons x xs ih =>
    intro hl s hGood
    have hxN : x < g.length := hl x (List.mem_cons_self x xs)
    have hstep : ∃ s1, (if (s x).valueDeleted then recompute_node S g s x else .ok s) = .ok s1 ∧
        GoodS S g s1 ∧ (∀ j, (s1 j).grad = (s j).grad) ∧
        (∀ j, (s j).valueDeleted = false → s1 j = s j) ∧ (s1 x).valueDeleted = false := by
      by_cases hdel : (s x).valueDeleted = true
      · rw [if_pos hdel]
        exact recompute_sim hwf hGood hxN hsup
      · have hlive : (s x).valueDeleted = false := by simpa using hdel
        rw [if_neg hdel]
        exact ⟨s, rfl, hGood, fun _ => rfl, fun _ _ => rfl, hlive⟩
    obtain ⟨s1, hs1, hG1, hg1, hp1, hx1⟩ := hstep
    obtain ⟨s', hfold, hG', hg', hp', hall⟩ :=
      ih (fun j hj => hl j (List.mem_cons_of_mem x hj)) s1 hG1
    refine ⟨s', ?_, hG', ?_, ?_, ?_⟩
    · rw [List.foldlM_cons, hs1]
      exact hfold
    · intro j
      rw [hg' j, hg1 j]
    · intro j hlive
      have he1 : s1 j = s j := hp1 j hlive
      have hd1 : (s1 j).valueDeleted = false := by rw [he1]; exact hlive
      rw [hp' j hd1, he1]
    · intro j hj
      rcases List.mem_cons.mp hj with rfl | hmem
      · rw [hp' j hx1]
        exact hx1
      · exact hall j hmem

theorem ensure_list_noop {V : Type} (S : OpSem V) (g : Graph V) (s : St V) :
    ∀ l : List Nat, (∀ j ∈ l, (s j).valueDeleted = false) →
      l.foldlM (fun st j => if (st j).valueDeleted then recompute_node S g st j else .ok st) s
        = .ok s := by
  intro l
  induction l with
  | nil => intro _; rfl
  | cons x xs ih =>
    intro hl
    have hx : (s x).valueDeleted = false := hl x (List.mem_cons_self x xs)
    rw [List.foldlM_cons, if_neg (by simp [hx])]
    exact ih (fun j hj => hl j (List.mem_cons_of_mem x hj))

/-! ## Accumulation lemmas -/

theorem acc_fold_fields {V : Type} (S : OpSem V) (op : Op) (inV : List V) (outV gi : V) :
    ∀ (l : List (Nat × Nat)) (st : St V) (j : Nat),
      ((l.foldl (fun st2 kj =>
          upd st2 kj.2 { st2 kj.2 with
            grad := S.addG (st2 kj.2).grad (S.vjp op inV outV gi kj.1) }) st) j).value
        = (st j).value ∧
      ((l.foldl (fun st2 kj =>
          upd st2 kj.2 { st2 kj.2 with
            grad := S.addG (st2 kj.2).grad (S.vjp op inV outV gi kj.1) }) st) j).valueDeleted
        = (st j).valueDeleted ∧
      ((l.foldl (fun st2 kj =>
          upd st2 kj.2 { st2 kj.2 with
            grad := S.addG (st2 kj.2).grad (S.vjp op inV outV gi kj.1) }) st) j).isCheckpoint
        = (st j).isCheckpoint ∧
      ((l.foldl (fun st2 kj =>
          upd st2 kj.2 { st2 kj.2 with
            grad := S.addG (st2 kj.2).grad (S.vjp op inV outV gi kj.1) }) st) j).cachedShape
        = (st j).cachedShape := by
  intro l
  induction l with
  | nil => exact fun st j => ⟨rfl, rfl, rfl, rfl⟩
  | cons kj l ih =>
    intro st j
    rw [List.foldl_cons]
    obtain ⟨h1, h2, h3, h4⟩ := ih (upd st kj.2 { st kj.2 with
      grad := S.addG (st kj.2).grad (S.vjp op inV outV gi kj.1) }) j
    rw [h1, h2, h3, h4]
    by_cases hj : j = kj.2
    · subst hj
      rw [upd_self]
      exact ⟨rfl, rfl, rfl, rfl⟩
    · rw [upd_other _ _ _ _ hj]
      exact ⟨rfl, rfl, rfl, rfl⟩

theorem acc_fold_grad {V : Type} (S : OpSem V) (op : Op) (inV : List V) (outV gi : V) :
    ∀ (l : List (Nat × Nat)) (s1 s2 : St V),
      (∀ j, (s1 j).grad = (s2 j).grad) →
      ∀ j,
        ((l.foldl (fun st2 kj =>
            upd st2 kj.2 { st2 kj.2 with
              grad := S.addG (st2 kj.2).grad (S.vjp op inV outV gi kj.1) }) s1) j).grad
        = ((l.foldl (fun st2 kj =>
            upd st2 kj.2 { st2 kj.2 with
              grad := S.addG (st2 kj.2).grad (S.vjp op inV outV gi kj.1) }) s2) j).grad := by
  intro l
  induction l with
  | nil => exact fun s1 s2 h j => h j
  | cons kj l ih =>
    intro s1 s2 h j
    rw [List.foldl_cons, List.foldl_cons]
    refine ih _ _ ?_ j
    intro m
    by_cases hm : m = kj.2
    · subst hm
      rw [upd_self, upd_self]
      simp only [h kj.2]
    · rw [upd_other _ _ _ _ hm, upd_other _ _ _ _ hm]
      exact h m

theorem acc_fields {V : Type} (S : OpSem V) (g : Graph V) (s : St V) (i j : Nat) :
    ((accumulate_step S g s i) j).value = (s j).value ∧
    ((accumulate_step S g s i) j).valueDeleted = (s j).valueDeleted ∧
    ((accumulate_step S g s i) j).isCheckpoint = (s j).isCheckpoint ∧
    ((accumulate_step S g s i) j).cachedShape = (s j).cachedShape := by
  unfold accumulate_step
  cases hg : g.get? i with
  | none => exact ⟨rfl, rfl, rfl, rfl⟩
  | some nd =>
    simp only []
    exact acc_fold_fields S nd.op _ _ _ nd.inputs.enum s j

theorem accumulate_grad_eq {V : Type} (S : OpSem V) (g : Graph V) (sa sb : St V) (i : Nat)
    (hvals : ∀ j ∈ inputsOf g i, (sa j).value = (sb j).value)
    (hout : (sa i).value = (sb i).value)
    (hgr : ∀ j, (sa j).grad = (sb j).grad) :
    ∀ j, ((accumulate_step S g sa i) j).grad = ((accumulate_step S g sb i) j).grad := by
  intro j
  unfold accumulate_step
  cases hgi : g.get? i with
  | none => exact hgr j
  | some nd =>
    simp only []
    have hin : nd.inputs.map (fun k => (sa k).value.getD S.emptyV)
        = nd.inputs.map (fun k => (sb k).value.getD S.emptyV) := by
      refine List.map_congr_left ?_
      intro k hk
      rw [hvals k (by rw [inputsOf_of_get hgi]; exact hk)]
    rw [hin, hout, hgr i]
    exact acc_fold_grad S nd.op _ _ _ nd.inputs.enum sa sb hgr j

theorem accumulate_Good {V : Type} {S : OpSem V} {g : Graph V} {s : St V}
    (hGood : GoodS S g s) (i : Nat) : GoodS S g (accumulate_step S g s i) := by
  constructor
  · intro k hk hlive
    obtain ⟨h1, h2, _, _⟩ := acc_fields S g s i k
    rw [h2] at hlive
    rw [h1]
    exact hGood.1 k hk hlive
  · intro k hk hleaf
    obtain ⟨_, h2, _, _⟩ := acc_fields S g s i k
    rw [h2]
    exact hGood.2 k hk hleaf

theorem accumulate_AllLive {V : Type} {S : OpSem V} {g : Graph V} {s : St V}
    (hAll : AllLive S g s) (i : Nat) : AllLive S g (accumulate_step S g s i) := by
  intro k hk
  obtain ⟨h1, h2, _, _⟩ := acc_fields S g s i k
  rw [h1, h2]
  exact hAll k hk

/-! ## Backward-pass simulation -/

theorem visit_sim {V : Type} {S : OpSem V} {g : Graph V} (hwf : WF g)
    (hsup : ∀ k, k < g.length → inputsOf g k ≠ [] → supported (opOf g k) = true)
    {sa sb : St V} (hGa : GoodS S g sa) (hAb : AllLive S g sb)
    (hgr : ∀ j, (sa j).grad = (sb j).grad) {i : Nat} (hi : i < g.length) :
    ∃ sa' sb', backward_visit S g sa i = .ok sa' ∧ backward_visit S g sb i = .ok sb' ∧
      GoodS S g sa' ∧ AllLive S g sb' ∧ (∀ j, (sa' j).grad = (sb' j).grad) := by
  have hensb : ensure_live S g sb i = .ok sb := by
    unfold ensure_live
    rw [if_neg (by simp [(hAb i hi).1])]
  have heinb : ensure_inputs_live S g sb i = .ok sb := by
    unfold ensure_inputs_live
    refine ensure_list_noop S g sb _ ?_
    intro j hj
    exact (hAb j (lt_trans (input_lt hwf hj) hi)).1
  have hvb : backward_visit S g sb i = .ok (accumulate_step S g sb i) := by
    unfold backward_visit
    rw [hensb]
    simp only []
    rw [heinb]
  obtain ⟨s1, he1, hG1, hg1, hp1, hd1⟩ := ensure_live_sim hwf hGa hi hsup
  obtain ⟨s2, he2, hG2, hg2, hp2, hall2⟩ :=
    ensure_list_sim hwf hsup (inputsOf g i)
      (fun j hj => lt_trans (input_lt hwf hj) hi) s1 hG1
  have hvA : backward_visit S g sa i = .ok (accumulate_step S g s2 i) := by
    unfold backward_visit
    rw [he1]
    simp only []
    rw [show ensure_inputs_live S g s1 i = .ok s2 from he2]
  have hs2i : (s2 i).valueDeleted = false := by
    have he : s2 i = s1 i := hp2 i hd1
    rw [he]
    exact hd1
  refine ⟨accumulate_step S g s2 i, accumulate_step S g sb i, hvA, hvb,
    accumulate_Good hG2 i, accumulate_AllLive hAb i, ?_⟩
  refine accumulate_grad_eq S g s2 sb i ?_ ?_ ?_
  · intro j hj
    have hjN : j < g.length := lt_trans (input_lt hwf hj) hi
    rw [hG2.1 j hjN (hall2 j hj), (hAb j hjN).2]
  · rw [hG2.1 i hi hs2i, (hAb i hi).2]
  · intro j
    rw [hg2 j, hg1 j, hgr j]

theorem backward_fold_sim {V : Type} {S : OpSem V} {g : Graph V} (hwf : WF g)
    (hsup : ∀ k, k < g.length → inputsOf g k ≠ [] → supported (opOf g k) = true) :
    ∀ (L : List Nat), (∀ i ∈ L, i < g.length) → ∀ (sa sb : St V),
      GoodS S g sa → AllLive S g sb → (∀ j, (sa j).grad = (sb j).grad) →
      ∃ sa' sb', L.foldlM (backward_visit S g) sa = .ok sa' ∧
        L.foldlM (backward_visit S g) sb = .ok sb' ∧
        GoodS S g sa' ∧ AllLive S g sb' ∧ (∀ j, (sa' j).grad = (sb' j).grad) := by
  intro L
  induction L with
  | nil =>
    intro _ sa sb hGa hAb hgr
    exact ⟨sa, sb, rfl, rfl, hGa, hAb, hgr⟩
  | cons i L ih =>
    intro hL sa sb hGa hAb hgr
    obtain ⟨sa1, sb1, hva, hvb, hGa1, hAb1, hgr1⟩ :=
      visit_sim hwf hsup hGa hAb hgr (hL i (List.mem_cons_self i L))
    obtain ⟨sa', sb', hfa, hfb, hGa', hAb', hgr'⟩ :=
      ih (fun j hj => hL j (List.mem_cons_of_mem i hj)) sa1 sb1 hGa1 hAb1 hgr1
    refine ⟨sa', sb', ?_, ?_, hGa', hAb', hgr'⟩
    · rw [List.foldlM_cons, hva]
      exact hfa
    · rw [List.foldlM_cons, hvb]
      exact hfb

/-! ## Facts about the deletion and marking passes -/

theorem delete_cases {V : Type} (S : OpSem V) (g : Graph V) (s : St V) (i : Nat) :
    delete_unmarked_values S g s i = s i ∨
    delete_unmarked_values S g s i
      = { s i with
          cachedShape := S.shapeOf ((s i).value.getD S.emptyV)
          value := none
          valueDeleted := true } := by
  unfold delete_unmarked_values
  cases g.get? i with
  | none => exact Or.inl rfl
  | some nd =>
    simp only []
    by_cases h : (nd.inputs.isEmpty || (s i).isCheckpoint || (s i).valueDeleted) = true
    · rw [if_pos h]
      exact Or.inl rfl
    · rw [if_neg h]
      exact Or.inr rfl

theorem delete_grad {V : Type} (S : OpSem V) (g : Graph V) (s : St V) (i : Nat) :
    (delete_unmarked_values S g s i).grad = (s i).grad := by
  rcases delete_cases S g s i with h | h <;> rw [h]

theorem delete_ckpt_flag {V : Type} (S : OpSem V) (g : Graph V) (s : St V) (i : Nat) :
    (delete_unmarked_values S g s i).isCheckpoint = (s i).isCheckpoint := by
  rcases delete_cases S g s i with h | h <;> rw [h]

theorem delete_leaf {V : Type} (S : OpSem V) (g : Graph V) (s : St V) (i : Nat)
    (h : inputsOf g i = []) : delete_unmarked_values S g s i = s i := by
  unfold delete_unmarked_values
  cases hg : g.get? i with
  | none => rfl
  | some nd =>
    have hie : nd.inputs.isEmpty = true := by
      rw [inputsOf_of_get hg] at h
      simp [h]
    simp only []
    rw [if_pos (by simp [hie])]

theorem delete_checkpoint {V : Type} (S : OpSem V) (g : Graph V) (s : St V) (i : Nat)
    (h : (s i).isCheckpoint = true) : delete_unmarked_values S g s i = s i := by
  unfold delete_unmarked_values
  cases hg : g.get? i with
  | none => rfl
  | some nd =>
    simp only []
    rw [if_pos (by simp [h])]

theorem delete_live_inv {V : Type} (S : OpSem V) (g : Graph V) (s : St V) (i : Nat)
    (h : (delete_unmarked_values S g s i).valueDeleted = false) :
    delete_unmarked_values S g s i = s i ∧ (s i).valueDeleted = false := by
  rcases delete_cases S g s i with he | he
  · refine ⟨he, ?_⟩
    rw [he] at h
    exact h
  · rw [he] at h
    cases h

theorem uniform_marksOnly {V : Type} (g : Graph V) (k : Nat) (s : St V) :
    MarksOnly s (uniform_placement g k s) := by
  intro i
  unfold uniform_placement
  by_cases h : (decide (i < g.length) && !leafAt g i
      && (decide (i % k = 0) || decide (i = g.length - 1))) = true
  · rw [if_pos h]
    exact ⟨rfl, rfl, rfl, rfl⟩
  · rw [if_neg h]
    exact ⟨rfl, rfl, rfl, rfl⟩

theorem analyze_marksOnly {V : Type} (p : CheckpointPolicy) (g : Graph V) (s : St V) :
    MarksOnly s (analyze_and_mark p g s) := by
  cases p with
  | Manual => exact fun i => ⟨rfl, rfl, rfl, rfl⟩
  | Uniform k => exact uniform_marksOnly g k s

theorem delete_marked_Good {V : Type} {S : OpSem V} {g : Graph V} {s smk : St V}
    (hAll : AllLive S g s) (hm : MarksOnly s smk) :
    GoodS S g (delete_unmarked_values S g smk) := by
  constructor
  · intro i hiN hlive
    rcases delete_cases S g smk i with h | h
    · rw [h] at hlive ⊢
      rw [(hm i).2.1]
      exact (hAll i hiN).2
    · rw [h] at hlive
      cases hlive
  · intro i hiN hleaf
    rw [delete_leaf S g smk i hleaf, (hm i).1]
    exact (hAll i hiN).1

theorem upd_grad_Good {V : Type} {S : OpSem V} {g : Graph V} {s : St V}
    (hG : GoodS S g s) (r : Nat) (v : V) :
    GoodS S g (upd s r { s r with grad := v }) := by
  constructor
  · intro i hiN hlive
    by_cases hir : i = r
    · subst hir
      rw [upd_self] at hlive ⊢
      exact hG.1 i hiN hlive
    · rw [upd_other _ _ _ _ hir] at hlive ⊢
      exact hG.1 i hiN hlive
  · intro i hiN hleaf
    by_cases hir : i = r
    · subst hir
      rw [upd_self]
      exact hG.2 i hiN hleaf
    · rw [upd_other _ _ _ _ hir]
      exact hG.2 i hiN hleaf

theorem upd_grad_AllLive {V : Type} {S : OpSem V} {g : Graph V} {s : St V}
    (hA : AllLive S g s) (r : Nat) (v : V) :
    AllLive S g (upd s r { s r with grad := v }) := by
  intro i hiN
  by_cases hir : i = r
  · subst hir
    rw [upd_self]
    exact hA i hiN
  · rw [upd_other _ _ _ _ hir]
    exact hA i hiN

theorem reachList_rev_lt {V : Type} (g : Graph V) :
    ∀ i ∈ (reachList g).reverse, i < g.length := by
  intro i hi
  rw [List.mem_reverse] at hi
  unfold reachList at hi
  exact List.mem_range.mp (List.mem_filter.mp hi).1

/-! ## Decidable checks and fresh-state facts -/

theorem wf_of_b {V : Type} (g : Graph V) (h : wfB g = true) : WF g := by
  intro i nd hget j hj
  have hiN : i < g.length := (List.get?_eq_some.mp hget).1
  have h1 := (List.all_eq_true.mp h) i (List.mem_range.mpr hiN)
  have h2 := (List.all_eq_true.mp h1) j (by rw [inputsOf_of_get hget]; exact hj)
  exact of_decide_eq_true h2

theorem sup_of_b {V : Type} (g : Graph V) (h : supB g = true) :
    ∀ i, i < g.length → inputsOf g i ≠ [] → supported (opOf g i) = true := by
  intro i hiN hne
  have h1 := (List.all_eq_true.mp h) i (List.mem_range.mpr hiN)
  simp only [Bool.or_eq_true] at h1
  rcases h1 with h2 | h2
  · exact absurd (by simpa [leafAt, List.isEmpty_iff] using h2) hne
  · exact h2

theorem mkFresh_AllLive {V : Type} (S : OpSem V) (g : Graph V) (gr : Nat → V) :
    AllLive S g (mkFresh S g gr) := by
  intro i hiN
  unfold mkFresh
  simp [hiN]

/-! ## zero_grad characterization -/

theorem zero_grad_cases {V : Type} (S : OpSem V) (g : Graph V) (s : St V) (i : Nat) :
    zero_grad S g s i = s i ∨
    zero_grad S g s i = { s i with grad := S.zeros (S.shapeOf ((s i).value.getD S.emptyV)) } := by
  unfold zero_grad
  by_cases h1 : (decide (i < g.length) && reachableB g (g.length - 1) i) = true
  · rw [if_pos h1]
    by_cases h2 : requiresGradOf g i = true
    · by_cases h3 : (s i).valueDeleted = true
      · rw [if_neg (by simp [h2]), if_pos h3]
        exact Or.inl rfl
      · rw [if_neg (by simp [h2]), if_neg h3]
        exact Or.inr rfl
    · rw [if_pos (by simp [Bool.not_eq_true _ ▸ h2])]
      exact Or.inl rfl
  · rw [if_neg h1]
    exact Or.inl rfl

theorem zero_grad_deleted {V : Type} (S : OpSem V) (g : Graph V) (s : St V) (i : Nat)
    (h : (s i).valueDeleted = true) : zero_grad S g s i = s i := by
  unfold zero_grad
  by_cases h1 : (decide (i < g.length) && reachableB g (g.length - 1) i) = true
  · rw [if_pos h1]
    by_cases h2 : requiresGradOf g i = true
    · rw [if_neg (by simp [h2]), if_pos h]
    · rw [if_pos (by simp [Bool.not_eq_true _ ▸ h2])]
  · rw [if_neg h1]

theorem zero_grad_noreq {V : Type} (S : OpSem V) (g : Graph V) (s : St V) (i : Nat)
    (h : requiresGradOf g i = false) : zero_grad S g s i = s i := by
  unfold zero_grad
  by_cases h1 : (decide (i < g.length) && reachableB g (g.length - 1) i) = true
  · rw [if_pos h1, if_pos (by simp [h])]
  · rw [if_neg h1]

theorem zero_grad_live {V : Type} (S : OpSem V) (g : Graph V) (s : St V) (i : Nat)
    (hN : i < g.length) (hreach : reachableB g (g.length - 1) i = true)
    (hreq : requiresGradOf g i = true) (hlive : (s i).valueDeleted = false) :
    zero_grad S g s i = { s i with grad := S.zeros (S.shapeOf ((s i).value.getD S.emptyV)) } := by
  unfold zero_grad
  rw [if_pos (by simp [hN, hreach]), if_neg (by simp [hreq]), if_neg (by simp [hlive])]

/-! ## uniform_placement characterization -/

theorem uniform_mark_iff {V : Type} (g : Graph V) (k : Nat) (s : St V)
    (h0 : ∀ i, (s i).isCheckpoint = false) (i : Nat) :
    ((uniform_placement g k s) i).isCheckpoint = true
      ↔ (i < g.length ∧ leafAt g i = false ∧ (i % k = 0 ∨ i = g.length - 1)) := by
  unfold uniform_placement
  by_cases h : (decide (i < g.length) && !leafAt g i
      && (decide (i % k = 0) || decide (i = g.length - 1))) = true
  · rw [if_pos h]
    simp only [Bool.and_eq_true, Bool.or_eq_true, decide_eq_true_eq, Bool.not_eq_true'] at h
    constructor
    · intro _
      exact ⟨h.1.1, h.1.2, h.2⟩
    · intro _
      rfl
  · rw [if_neg h]
    rw [h0 i]
    simp only [Bool.and_eq_true, Bool.or_eq_true, decide_eq_true_eq, Bool.not_eq_true'] at h
    constructor
    · intro hfalse
      cases hfalse
    · intro hc
      exact absurd ⟨⟨hc.1, hc.2.1⟩, hc.2.2⟩ h

/-! ## Claim theorems -/

/-- C1: For every node reachable from the root with requires_grad, the
gradient accumulated by backward(root) after checkpoint marking and
delete_unmarked equals, element-wise with exact equality for the
deterministic dispatch-supported op set, the gradient accumulated by
backward(root) on the same graph without any checkpointing or deletion.
Proved in the strongest form: starting from the completed forward state,
for any marking pass, both backward passes succeed and the gradient
buffers of ALL nodes (in particular every reachable requires_grad node)
are pointwise equal. -/
theorem claim_C1_gradient_equivalence {V : Type} (S : OpSem V) (g : Graph V)
    (s smk : St V) (hwf : WF g) (hAll : AllLive S g s) (hm : MarksOnly s smk)
    (hsup : ∀ i, i < g.length → inputsOf g i ≠ [] → supported (opOf g i) = true) :
    ∃ sa sb, backward S g (delete_unmarked_values S g smk) = .ok sa ∧
      backward S g s = .ok sb ∧ ∀ i, (sa i).grad = (sb i).grad := by
  have hGood : GoodS S g (delete_unmarked_values S g smk) := delete_marked_Good hAll hm
  have hGa := upd_grad_Good hGood (g.length - 1) S.one
  have hAb := upd_grad_AllLive hAll (g.length - 1) S.one
  have hgr : ∀ j, ((upd (delete_unmarked_values S g smk) (g.length - 1)
        { (delete_unmarked_values S g smk) (g.length - 1) with grad := S.one }) j).grad
      = ((upd s (g.length - 1) { s (g.length - 1) with grad := S.one }) j).grad := by
    intro j
    by_cases hjr : j = g.length - 1
    · subst hjr
      rw [upd_self, upd_self]
    · rw [upd_other _ _ _ _ hjr, upd_other _ _ _ _ hjr, delete_grad, (hm j).2.2.1]
  obtain ⟨sa, sb, hfa, hfb, _, _, hg⟩ := backward_fold_sim hwf hsup ((reachList g).reverse)
    (reachList_rev_lt g) _ _ hGa hAb hgr
  exact ⟨sa, sb, hfa, hfb, hg⟩

/-- C1 witness: the scenario-1 chain under Uniform(2) marking; both
backward passes succeed and the gradients of the leaf x (node 0) and of
the first interior node coincide with the non-checkpointed baseline. -/
theorem claim_C1_witness :
    exceptOk (backward intSem chainG (delete_unmarked_values intSem chainG
      (uniform_placement chainG 2 (mkFresh intSem chainG (fun _ => 0))))) = true ∧
    gradAt (backward intSem chainG (delete_unmarked_values intSem chainG
      (uniform_placement chainG 2 (mkFresh intSem chainG (fun _ => 0))))) 0
      = gradAt (backward intSem chainG (mkFresh intSem chainG (fun _ => 0))) 0 ∧
    gradAt (backward intSem chainG (delete_unmarked_values intSem chainG
      (uniform_placement chainG 2 (mkFresh intSem chainG (fun _ => 0))))) 1
      = gradAt (backward intSem chainG (mkFresh intSem chainG (fun _ => 0))) 1 := by
  obtain ⟨sa, sb, hfa, hfb, hg⟩ := claim_C1_gradient_equivalence intSem chainG
    (mkFresh intSem chainG (fun _ => 0))
    (uniform_placement chainG 2 (mkFresh intSem chainG (fun _ => 0)))
    (wf_of_b chainG (by decide))
    (mkFresh_AllLive intSem chainG (fun _ => 0))
    (uniform_marksOnly chainG 2 (mkFresh intSem chainG (fun _ => 0)))
    (sup_of_b chainG (by decide))
  rw [hfa, hfb]
  unfold exceptOk gradAt
  exact ⟨rfl, congrArg some (hg 0), congrArg some (hg 1)⟩

/-- C2: For every node whose value was released by delete_unmarked, a
subsequent successful recompute leaves its value_deleted flag false and
restores its value identical to the tensor produced by the original
forward pass, and every node on the replay path is likewise restored. -/
theorem claim_C2_recompute_restores {V : Type} (S : OpSem V) (g : Graph V)
    (s smk : St V) (hwf : WF g) (hAll : AllLive S g s) (hm : MarksOnly s smk)
    (t : Nat) (ht : t < g.length)
    (hdel : ((delete_unmarked_values S g smk) t).valueDeleted = true)
    (s' : St V)
    (hok : recompute_node S g (delete_unmarked_values S g smk) t = .ok s') :
    (s' t).valueDeleted = false ∧
    (s' t).value = some (valAt S g t) ∧
    (s' t).value = (s t).value ∧
    (∀ j ∈ build_forward_path g (delete_unmarked_values S g smk) t,
      (s' j).valueDeleted = false ∧ (s' j).value = some (valAt S g j)) := by
  have hGood : GoodS S g (delete_unmarked_values S g smk) := delete_marked_Good hAll hm
  unfold recompute_node at hok
  rw [if_pos hdel] at hok
  cases hf : find_nearest_checkpoint g (delete_unmarked_values S g smk) t with
  | none =>
    rw [hf] at hok
    cases hok
  | some anc =>
    rw [hf] at hok
    obtain ⟨p1, p2⟩ := replay_props hwf hGood ht _ [] _ s' (by simp) (fun j _ => rfl)
      (by intro j hj; cases hj) hok
    have htmem : t ∈ build_forward_path g (delete_unmarked_values S g smk) t :=
      (mem_path_iff hwf _ t t).mpr ⟨by omega, Or.inl rfl, hdel⟩
    refine ⟨?_, ?_, ?_, ?_⟩
    · rw [p2 t htmem]
    · rw [p2 t htmem]
    · rw [p2 t htmem]
      exact ((hAll t ht).2).symm
    · intro j hj
      exact ⟨by rw [p2 j hj], by rw [p2 j hj]⟩

/-- C2 witness: on the Uniform(2)-marked chain, node 3 is deleted;
recompute(3) succeeds, restores node 3 and node 1 (the replay path)
to the original forward values and clears their value_deleted flags. -/
theorem claim_C2_witness :
    deletedAt (recompute_node intSem chainG (delete_unmarked_values intSem chainG
      (uniform_placement chainG 2 (mkFresh intSem chainG (fun _ => 0)))) 3) 3 = some false ∧
    valueAt (recompute_node intSem chainG (delete_unmarked_values intSem chainG
      (uniform_placement chainG 2 (mkFresh intSem chainG (fun _ => 0)))) 3) 3
      = some (some (valAt intSem chainG 3)) ∧
    valueAt (recompute_node intSem chainG (delete_unmarked_values intSem chainG
      (uniform_placement chainG 2 (mkFresh intSem chainG (fun _ => 0)))) 3) 1
      = some (some (valAt intSem chainG 1)) := by
  cases hok : recompute_node intSem chainG (delete_unmarked_values intSem chainG
      (uniform_placement chainG 2 (mkFresh intSem chainG (fun _ => 0)))) 3 with
  | error e =>
    have hcomp : exceptOk (recompute_node intSem chainG (delete_unmarked_values intSem chainG
        (uniform_placement chainG 2 (mkFresh intSem chainG (fun _ => 0)))) 3) = true := rfl
    rw [hok] at hcomp
    cases hcomp
  | ok s' =>
    obtain ⟨h1, h2, _, h4⟩ := claim_C2_recompute_restores intSem chainG
      (mkFresh intSem chainG (fun _ => 0))
      (uniform_placement chainG 2 (mkFresh intSem chainG (fun _ => 0)))
      (wf_of_b chainG (by decide))
      (mkFresh_AllLive intSem chainG (fun _ => 0))
      (uniform_marksOnly chainG 2 (mkFresh intSem chainG (fun _ => 0)))
      3 (by decide) rfl s' hok
    unfold deletedAt valueAt
    exact ⟨congrArg some h1, congrArg some h2,
      congrArg some (h4 1 (by decide)).2⟩

/-- C3: the anchor-location step of recompute is a BFS backward through
inputs seeded with the target's inputs; any anchor it returns is a strict
ancestor whose value_deleted is false and whose value is non-empty — being
marked is_checkpoint is not required (the expG instance returns the
unmarked live leaf) — and it returns none (NoCheckpointReachable) exactly
when no live-value strict ancestor exists. -/
theorem claim_C3_anchor_search {V : Type} (g : Graph V) (s : St V) (t : Nat) (hwf : WF g) :
    (∀ a, find_nearest_checkpoint g s t = some a →
      Reach g t a ∧ (s a).valueDeleted = false ∧ (s a).value.isSome = true) ∧
    (find_nearest_checkpoint g s t = none
      ↔ ∀ a, Reach g t a → ¬((s a).valueDeleted = false ∧ (s a).value.isSome = true)) ∧
    (find_nearest_checkpoint expG expSt 1 = some 0 ∧ (expSt 0).isCheckpoint = false) := by
  refine ⟨?_, ⟨?_, ?_⟩, rfl, rfl⟩
  · intro a h
    obtain ⟨hr, hl⟩ := find_nearest_some h
    simp only [liveNE, Bool.and_eq_true, Bool.not_eq_true'] at hl
    exact ⟨hr, hl.1, hl.2⟩
  · intro h a hr hla
    have hfalse := find_nearest_none hwf h a hr
    have htrue : liveNE s a = true := by
      simp [liveNE, hla.1, hla.2]
    rw [htrue] at hfalse
    cases hfalse
  · intro h
    cases hf : find_nearest_checkpoint g s t with
    | none => rfl
    | some a =>
      obtain ⟨hr, hl⟩ := find_nearest_some hf
      simp only [liveNE, Bool.and_eq_true, Bool.not_eq_true'] at hl
      exact absurd hl (h a hr)

/-- C3 witness: on the forced expG state, the anchor returned for b is the
leaf a: a strict ancestor, live, with a non-empty value, and not a
checkpoint. -/
theorem claim_C3_witness :
    Reach expG 1 0 ∧ (expSt 0).valueDeleted = false ∧ (expSt 0).value.isSome = true ∧
    (expSt 0).isCheckpoint = false := by
  have h := claim_C3_anchor_search expG expSt 1 (wf_of_b expG (by decide))
  obtain ⟨hr, hd, hs⟩ := h.1 0 rfl
  exact ⟨hr, hd, hs, rfl⟩

/-- C5: after analyze_and_mark(root) followed by delete_unmarked(root),
every node that is a leaf or carries is_checkpoint = true still has
value_deleted = false: the deletion pass never releases the value of a
leaf or of a checkpoint. -/
theorem claim_C5_leaves_checkpoints_survive {V : Type} (S : OpSem V)
    (p : CheckpointPolicy) (g : Graph V) (s : St V)
    (h0 : ∀ i, i < g.length → (s i).valueDeleted = false) :
    ∀ i, i < g.length →
      (inputsOf g i = [] ∨ ((analyze_and_mark p g s) i).isCheckpoint = true) →
      ((delete_unmarked_values S g (analyze_and_mark p g s)) i).valueDeleted = false := by
  intro i hiN hcase
  rcases hcase with hleaf | hckpt
  · rw [delete_leaf S g _ i hleaf, (analyze_marksOnly p g s i).1]
    exact h0 i hiN
  · rw [delete_checkpoint S g _ i hckpt, (analyze_marksOnly p g s i).1]
    exact h0 i hiN

/-- C5 witness: on the chain under the Uniform(2) policy, the leaf
(node 0) and the checkpoint node 2 keep their values after deletion. -/
theorem claim_C5_witness :
    ((delete_unmarked_values intSem chainG (analyze_and_mark (CheckpointPolicy.Uniform 2)
      chainG (mkFresh intSem chainG (fun _ => 0)))) 0).valueDeleted = false ∧
    ((delete_unmarked_values intSem chainG (analyze_and_mark (CheckpointPolicy.Uniform 2)
      chainG (mkFresh intSem chainG (fun _ => 0)))) 2).valueDeleted = false := by
  have h := claim_C5_leaves_checkpoints_survive intSem (CheckpointPolicy.Uniform 2)
    chainG (mkFresh intSem chainG (fun _ => 0)) (fun i _ => rfl)
  exact ⟨h 0 (by decide) (Or.inl rfl), h 2 (by decide) (Or.inr rfl)⟩

/-- C10: in the operation-definition table (include/ad/detail/ops.def, as
quoted verbatim in the repository), the name string recorded for the Div
tag is "mul" and the names for the Cos and Sin tags are "cosh" and "sinh";
these collide with the genuine Mul, Cosh and Sinh entries, so any
name-keyed lookup or dispatch resolves these three ops to a different
operation than their tags denote. -/
theorem claim_C10_opname_bugs :
    opName Op.Div = "mul" ∧ opName Op.Cos = "cosh" ∧ opName Op.Sin = "sinh" ∧
    opName Op.Div = opName Op.Mul ∧ Op.Div ≠ Op.Mul ∧
    opName Op.Cos = opName Op.Cosh ∧ Op.Cos ≠ Op.Cosh ∧
    opName Op.Sin = opName Op.Sinh ∧ Op.Sin ≠ Op.Sinh := by
  refine ⟨rfl, rfl, rfl, rfl, by decide, rfl, by decide, rfl, by decide⟩

/-- C4 counterexample: in the graph a = leaf, b = exp(a), c = sum(b), with
b.value_deleted forced true and nothing marked as a checkpoint (the leaf
keeps its live value), recompute(b) does NOT fail with
NoCheckpointReachable as the claim states: the BFS anchors on the live
leaf and the replay succeeds. -/
theorem claim_C4_counterexample :
    exceptOk (recompute_node intSem expG expSt 1) = true ∧
    recompute_node intSem expG expSt 1 ≠ Except.error CkptError.NoCheckpointReachable := by
  refine ⟨rfl, ?_⟩
  intro h
  have hcomp : exceptOk (recompute_node intSem expG expSt 1) = true := rfl
  rw [h] at hcomp
  cases hcomp

/-- C4 amended: in the graph a = leaf, b = exp(a), c = sum(b), with
b.value_deleted forced true and no checkpoint marked, recompute(b)
succeeds: the anchor search returns the leaf a, which holds a live value
but is not a checkpoint, and b's value is restored; recompute(b) fails
with NoCheckpointReachable only when a's value is also released, leaving
no live-value ancestor at all. -/
theorem claim_C4_amended :
    find_nearest_checkpoint expG expSt 1 = some 0 ∧
    (expSt 0).isCheckpoint = false ∧
    deletedAt (recompute_node intSem expG expSt 1) 1 = some false ∧
    valueAt (recompute_node intSem expG expSt 1) 1 = some (some (valAt intSem expG 1)) ∧
    recompute_node intSem expG expStDead 1 = Except.error CkptError.NoCheckpointReachable := by
  exact ⟨rfl, rfl, rfl, rfl, rfl⟩

/-- C6 counterexample: node 1 of expG in state zgSt is reachable from the
root, requires grad, and has value_deleted = true with cached_shape [4];
the claim says zero_grad zeroes its gradient sized from cached_shape, but
zero_grad leaves its stale gradient 7 untouched (the implementation skips
every deleted node). -/
theorem claim_C6_counterexample :
    reachableB expG (expG.length - 1) 1 = true ∧
    requiresGradOf expG 1 = true ∧
    (zgSt 1).valueDeleted = true ∧
    ((zero_grad intSem expG zgSt) 1).grad = 7 ∧
    intSem.zeros ((zgSt 1).cachedShape) = 0 ∧
    (7 : Int) ≠ 0 := by
  refine ⟨rfl, rfl, rfl, rfl, rfl, by decide⟩

/-- C6 amended: zero_grad zeroes the gradient buffer of every
root-reachable node with requires_grad = true and value_deleted = false,
sizing it from the live value's shape; every node with value_deleted =
true is skipped unchanged regardless of requires_grad (cached_shape is not
consulted), nodes without requires_grad are skipped, and no field other
than the gradient is ever modified. -/
theorem claim_C6_amended {V : Type} (S : OpSem V) (g : Graph V) (s : St V) (hwf : WF g) :
    (∀ i, i < g.length → (i = g.length - 1 ∨ Reach g (g.length - 1) i) →
      requiresGradOf g i = true → (s i).valueDeleted = false →
      (zero_grad S g s i).grad = S.zeros (S.shapeOf ((s i).value.getD S.emptyV))) ∧
    (∀ i, (s i).valueDeleted = true → zero_grad S g s i = s i) ∧
    (∀ i, requiresGradOf g i = false → zero_grad S g s i = s i) ∧
    (∀ i, (zero_grad S g s i).value = (s i).value ∧
      (zero_grad S g s i).valueDeleted = (s i).valueDeleted ∧
      (zero_grad S g s i).isCheckpoint = (s i).isCheckpoint) := by
  refine ⟨?_, zero_grad_deleted S g s, zero_grad_noreq S g s, ?_⟩
  · intro i hiN hreach hreq hlive
    have hb : reachableB g (g.length - 1) i = true := (reachableB_iff hwf _ _).mpr hreach
    rw [zero_grad_live S g s i hiN hb hreq hlive]
  · intro i
    rcases zero_grad_cases S g s i with h | h <;> rw [h] <;> exact ⟨rfl, rfl, rfl⟩

/-- C6 witness: in state zgSt the live leaf (node 0, requires grad) gets
its gradient zeroed from its live value's shape, while the deleted node 1
is left entirely unchanged. -/
theorem claim_C6_witness :
    ((zero_grad intSem expG zgSt) 0).grad
      = intSem.zeros (intSem.shapeOf ((zgSt 0).value.getD intSem.emptyV)) ∧
    zero_grad intSem expG zgSt 1 = zgSt 1 := by
  have h := claim_C6_amended intSem expG zgSt (wf_of_b expG (by decide))
  refine ⟨h.1 0 (by decide) (Or.inr ?_) rfl rfl, h.2.1 1 rfl⟩
  exact Reach.cons (m := 1) (by decide) (Reach.single (by decide))

/-- C7 counterexample: Sigmoid has no entry in the forward re-execution
dispatch (README.md's list stops at Add, Sub, Mul, Div, MatMul, ReLU,
Tanh, Exp, Log, Transpose, Sum): recomputing a deleted sigmoid node fails
with UnsupportedOpDuringRecompute, although the claim lists Sigmoid among
the handled ops. -/
theorem claim_C7_counterexample :
    supported Op.Sigmoid = false ∧
    recompute_node intSem sigG sigSt 1
      = Except.error (CkptError.UnsupportedOpDuringRecompute Op.Sigmoid) := by
  exact ⟨rfl, rfl⟩

/-- C7 amended: the forward re-execution dispatch handles exactly Add,
Sub, Mul, Div, MatMul, ReLU, Tanh, Exp, Log, Transpose and Sum — Sigmoid
is not among them; executing a node whose op is outside this set during
recomputation raises the fatal UnsupportedOpDuringRecompute naming the op;
the deletion pass never raises any error and releases an unsupported-op
node like any other. -/
theorem claim_C7_amended :
    (∀ op : Op, supported op = true
      ↔ op ∈ [Op.Add, Op.Sub, Op.Mul, Op.Div, Op.MatMul, Op.ReLU, Op.Tanh,
          Op.Exp, Op.Log, Op.Transpose, Op.Sum]) ∧
    (∀ (V : Type) (S : OpSem V) (g : Graph V) (s : St V) (i : Nat) (nd : Nd V),
      g.get? i = some nd → supported nd.op = false →
      execute_forward_op S g s i = .error (.UnsupportedOpDuringRecompute nd.op)) ∧
    ((delete_unmarked_values intSem sigG (mkFresh intSem sigG (fun _ => 0))) 1).valueDeleted
      = true := by
  refine ⟨?_, ?_, rfl⟩
  · intro op
    cases op <;> simp [supported]
  · intro V S g s i nd hg hns
    unfold execute_forward_op
    rw [hg]
    simp [hns]

/-- C7 witness: re-executing the sigmoid node of sigG raises
UnsupportedOpDuringRecompute naming Sigmoid, and Add is dispatched. -/
theorem claim_C7_witness :
    execute_forward_op intSem sigG sigSt 1
      = Except.error (CkptError.UnsupportedOpDuringRecompute Op.Sigmoid) ∧
    supported Op.Add = true := by
  refine ⟨claim_C7_amended.2.1 Int intSem sigG sigSt 1
    { op := Op.Sigmoid, inputs := [0], requiresGrad := true, payload := 0 } rfl rfl, ?_⟩
  exact (claim_C7_amended.1 Op.Add).mpr (by decide)

/-- C8 counterexample: on the scenario-1 chain, topological index 0 is the
leaf x, and 0 mod 2 = 0, yet Uniform(2) leaves is_checkpoint false on it —
so the marking is not exactly the set of indices with (i mod k = 0) or
i = N-1 as the claim states. -/
theorem claim_C8_counterexample :
    0 % 2 = 0 ∧
    ((uniform_placement chainG 2 (mkFresh intSem chainG (fun _ => 0))) 0).isCheckpoint
      = false := by
  exact ⟨rfl, rfl⟩

/-- C8 amended: Uniform(k) numbers the nodes 0..N-1 in topological order
with the root last and sets is_checkpoint exactly on the NON-LEAF nodes i
with (i mod k = 0) or i = N-1 (leaves are never marked); in particular,
Uniform(2) on the scenario-1 chain marks exactly 3 of the 5 non-leaf
nodes, all of them non-leaves. -/
theorem claim_C8_amended {V : Type} (g : Graph V) (k : Nat) (s : St V)
    (h0 : ∀ i, (s i).isCheckpoint = false) :
    (∀ i, ((uniform_placement g k s) i).isCheckpoint = true
      ↔ (i < g.length ∧ leafAt g i = false ∧ (i % k = 0 ∨ i = g.length - 1))) ∧
    (((List.range chainG.length).filter
        (fun i => ((uniform_placement chainG 2
          (mkFresh intSem chainG (fun _ => 0))) i).isCheckpoint)).length = 3 ∧
     ((List.range chainG.length).filter (fun i => !leafAt chainG i)).length = 5 ∧
     ∀ i ∈ (List.range chainG.length).filter
        (fun i => ((uniform_placement chainG 2
          (mkFresh intSem chainG (fun _ => 0))) i).isCheckpoint),
        leafAt chainG i = false) := by
  exact ⟨uniform_mark_iff g k s h0, by decide, by decide, by decide⟩

/-- C8 witness: on the chain, Uniform(2) marks node 2 (index 2, even) and
the root node 5 (index N-1). -/
theorem claim_C8_witness :
    ((uniform_placement chainG 2 (mkFresh intSem chainG (fun _ => 0))) 2).isCheckpoint
      = true ∧
    ((uniform_placement chainG 2 (mkFresh intSem chainG (fun _ => 0))) 5).isCheckpoint
      = true := by
  have h := claim_C8_amended chainG 2 (mkFresh intSem chainG (fun _ => 0)) (fun _ => rfl)
  exact ⟨(h.1 2).mpr (by decide), (h.1 5).mpr (by decide)⟩

/-- C9 (code bug exhibited): Dropout is a known-stochastic op, yet with
save_rng unavailable neither the deletion pass nor the recomputation
refuses: deletion releases the dropout node without any check, and the
replay silently re-executes it under the RNG stream current at backward
time (stream 1) instead of the original forward stream (stream 0),
restoring value 0 where the original forward pass produced 5 — no
StochasticOpOnDeletedPath error exists anywhere on this path. -/
theorem claim_C9_stochastic_replay_diverges :
    stochastic Op.Dropout = true ∧
    ((delete_unmarked_values intSem dropG dropFresh) 1).valueDeleted = true ∧
    rngEval Op.Dropout [5] 0 = 5 ∧
    (dropFresh 1).value = some 5 ∧
    exceptOk (recompute_node_rng dropG (delete_unmarked_values intSem dropG dropFresh) 1 1)
      = true ∧
    valueAt (recompute_node_rng dropG (delete_unmarked_values intSem dropG dropFresh) 1 1) 1
      = some (some 0) ∧
    (0 : Int) ≠ 5 := by
  refine ⟨rfl, rfl, rfl, rfl, rfl, rfl, by decide⟩

end Cgadimpl


